import Mathlib

/-!
# SvaraScala: a verification of the Tonal Model & Compatibility Graph Engine

Shallow embedding of the `svarascala` Python library (modules `western.py`,
`indian.py`, `modes.py`, `navarasa.py`) together with proofs settling the
frozen claims about its specification.

Conventions of the embedding:
* Python dictionaries become association lists (insertion order preserved,
  first match wins, which coincides with dict semantics here because no key
  is inserted twice).
* Fallible Python code (a `raise`, an uncaught `KeyError`/`ValueError` from
  `dict[...]`/`list.index`) becomes `Except String`; functions of the source
  that return `None` as a value return `Option`.
* Messages of errors the source raises explicitly are reproduced; messages
  of exceptions coming from Python built-ins (`list.index`, `dict[...]`,
  `int(...)`) are abbreviated, and implementation-defined fragments (the
  "Available notes" suffix built from a Python set) are omitted.
* Equal-tempered frequencies `reference * 2^(d/12)` are represented exactly
  by the pair `(reference, d) : ℚ × ℤ` (the reference and the signed
  semitone distance from A4), since `2^(1/12)` is irrational; two calls of
  the source return the same float exactly when they compute the same pair.
  Just-intonation frequencies are exact rationals `reference * ratio : ℚ`.
-/

namespace SvaraScala

/-! ## Small list helpers (association list lookup, index of an element) -/

/-- First value bound to `k` in an association list (Python `dict[k]` /
`dict.get(k)`). -/
def lookupStr (m : List (String × String)) (k : String) : Option String :=
  match m.find? (fun p => p.1 == k) with
  | some p => some p.2
  | none => none

/-- Association-list lookup with arbitrary value type. -/
def lookupV {α : Type} (m : List (String × α)) (k : String) : Option α :=
  match m.find? (fun p => p.1 == k) with
  | some p => some p.2
  | none => none

/-- Association-list lookup keyed by integers (the Camelot wheel and the
shruti table are keyed by numbers). -/
def lookupZ {α : Type} (m : List (ℤ × α)) (k : ℤ) : Option α :=
  match m.find? (fun p => p.1 == k) with
  | some p => some p.2
  | none => none

/-- Index of the first occurrence of `a` (Python `list.index`, which raises
`ValueError` when absent; absence is the `none` case). -/
def indexOfStr? (l : List String) (a : String) : Option ℕ :=
  match l with
  | [] => none
  | x :: xs =>
    if x == a then some 0
    else match indexOfStr? xs a with
         | some i => some (i + 1)
         | none => none

/-- Python `s.endswith(c)` for a single-character suffix, on the character
list of the string (kernel-reducible form). -/
def endsWithChar (s : String) (c : Char) : Bool :=
  match s.data.getLast? with
  | some d => d == c
  | none => false

/-- Python `s[:-1]` (drop the final character), on the character list of
the string (kernel-reducible form). -/
def dropRight1 (s : String) : String := String.mk s.data.dropLast

/-! ## WesternMusic (`western.py`) -/

/-- `WesternMusic.notes`: the 12 canonical (sharp-spelled) pitch classes,
from C up to B. -/
def notes : List String :=
  ["C", "C#", "D", "D#", "E", "F"] ++ ["F#", "G", "G#", "A", "A#", "B"]

/-- `WesternMusic.enharmonic_map`: the 5 sharp/flat alias pairs, both
directions. -/
def enharmonic_map : List (String × String) :=
  [("C#", "Db"), ("Db", "C#"),
   ("D#", "Eb"), ("Eb", "D#"),
   ("F#", "Gb"), ("Gb", "F#"),
   ("G#", "Ab"), ("Ab", "G#"),
   ("A#", "Bb"), ("Bb", "A#")]

/-- `WesternMusic.solfege`: the 12-syllable chromatic solfege cycle. -/
def solfege : List String :=
  ["Do", "Di", "Re", "Ri", "Mi", "Fa", "Fi", "Sol", "Si", "La", "Li", "Ti"]

/-- The flat-to-sharp normalization performed at the top of
`WesternMusic.get_frequency`: if the note is not canonical but has an
enharmonic alias, replace it by the alias. -/
def normalizeNote (note : String) : String :=
  if note ∈ notes then note
  else
    match lookupStr enharmonic_map note with
    | some n => n
    | none => note

/-- Index of `note` in `notes`, `none` when it is not a canonical spelling. -/
def noteIndex? (note : String) : Option ℕ := indexOfStr? notes note

/-- `WesternMusic.get_frequency(note, octave)`. The Python function returns
`reference_a4 * 2 ** (distance / 12)`; the result is represented exactly as
the pair `(reference_a4, distance)`. Unknown notes (after enharmonic
normalization) raise `ValueError` (whose implementation-defined
"Available notes" suffix is omitted here). -/
def get_frequency (ref : ℚ) (note : String) (octave : ℤ) : Except String (ℚ × ℤ) :=
  let n := normalizeNote note
  match noteIndex? n with
  | none => .error ("Unknown note: " ++ note)
  | some i =>
    match noteIndex? "A" with
    | none => .error "unreachable"
    | some a => .ok (ref, (i : ℤ) - (a : ℤ) + (octave - 4) * 12)

/-- `WesternMusic.get_solfege_frequency(solfege_name, octave, key)`. Note
that the source indexes `key` in `self.notes` directly, with no enharmonic
normalization; `list.index` raises `ValueError` for an absent element. -/
def get_solfege_frequency (ref : ℚ) (solfege_name : String) (octave : ℤ)
    (key : String) : Except String (ℚ × ℤ) :=
  match indexOfStr? solfege solfege_name with
  | none => .error ("ValueError: " ++ solfege_name ++ " is not in list")
  | some si =>
    match indexOfStr? notes key with
    | none => .error ("ValueError: " ++ key ++ " is not in list")
    | some ki =>
      let note_index := (ki + si) % 12
      let actual_note := notes.getD note_index ""
      let octave_adjustment := ((ki + si) / 12 : ℕ)
      get_frequency ref actual_note (octave + octave_adjustment)

/-- `scale_patterns` of `WesternMusic.get_scale`. -/
def scale_patterns : List (String × List ℕ) :=
  [("major", [0, 2, 4, 5, 7, 9, 11]),
   ("minor", [0, 2, 3, 5, 7, 8, 10]),
   ("minor_harmonic", [0, 2, 3, 5, 7, 8, 11]),
   ("minor_melodic", [0, 2, 3, 5, 7, 9, 11]),
   ("chromatic", [0, 1, 2, 3, 4, 5, 6, 7, 8, 9, 10, 11]),
   ("pentatonic_major", [0, 2, 4, 7, 9]),
   ("pentatonic_minor", [0, 3, 5, 7, 10]),
   ("blues", [0, 3, 5, 6, 7, 10])]

/-- One entry of the dictionary built by `WesternMusic.get_scale`: the label
`f"{actual_note}{actual_octave}"` and the frequency of that note. -/
def scaleEntry (ref : ℚ) (root_index : ℕ) (octave : ℤ) (interval : ℕ) :
    Except String (String × (ℚ × ℤ)) :=
  let note_index := (root_index + interval) % 12
  let actual_note := notes.getD note_index ""
  let actual_octave := octave + ((root_index + interval) / 12 : ℕ)
  match get_frequency ref actual_note actual_octave with
  | .ok f => .ok (actual_note ++ toString actual_octave, f)
  | .error e => .error e

/-- `WesternMusic.get_scale(root_note, octave, scale_type)`. The root is
indexed in `self.notes` directly (no enharmonic normalization); an unknown
scale type raises `ValueError`, and `list.index` raises for an unknown
root. -/
def get_scale (ref : ℚ) (root_note : String) (octave : ℤ) (scale_type : String) :
    Except String (List (String × (ℚ × ℤ))) :=
  match lookupV scale_patterns scale_type with
  | none => .error ("Unknown scale type: " ++ scale_type)
  | some pattern =>
    match indexOfStr? notes root_note with
    | none => .error ("ValueError: " ++ root_note ++ " is not in list")
    | some root_index => pattern.mapM (scaleEntry ref root_index octave)

/-! ### Camelot wheel -/

/-- `WesternMusic.camelot_wheel['B']`: major keys by wheel number. -/
def camelot_wheel_B : List (ℤ × String) :=
  [(1, "Ab"), (2, "Eb"), (3, "Bb"), (4, "F"), (5, "C"), (6, "G"),
   (7, "D"), (8, "A"), (9, "E"), (10, "B"), (11, "F#"), (12, "Db")]

/-- `WesternMusic.camelot_wheel['A']`: minor keys by wheel number. -/
def camelot_wheel_A : List (ℤ × String) :=
  [(1, "Fm"), (2, "Cm"), (3, "Gm"), (4, "Dm"), (5, "Am"), (6, "Em"),
   (7, "Bm"), (8, "F#m"), (9, "C#m"), (10, "G#m"), (11, "D#m"), (12, "A#m")]

/-- The reverse map `WesternMusic.key_to_camelot`, built exactly as in
`WesternMusic.__init__`: every canonical key maps to
`f"{number}{position}"`, and each key with an enharmonic alias also
registers the alias under the same position (for minor keys the alias is
taken on the root, keeping the `m` suffix). -/
def key_to_camelot : List (String × String) :=
  let addB := camelot_wheel_B.foldl
    (fun (acc : List (String × String)) p =>
      let acc := acc ++ [(p.2, toString p.1 ++ "B")]
      match lookupStr enharmonic_map p.2 with
      | some e => acc ++ [(e, toString p.1 ++ "B")]
      | none => acc) []
  camelot_wheel_A.foldl
    (fun (acc : List (String × String)) p =>
      let acc := acc ++ [(p.2, toString p.1 ++ "A")]
      if endsWithChar p.2 'm' then
        let root := dropRight1 p.2
        match lookupStr enharmonic_map root with
        | some e => acc ++ [(e ++ "m", toString p.1 ++ "A")]
        | none => acc
      else acc) addB

/-- `WesternMusic.get_camelot_notation(key, scale_type)` (renamed here to
avoid a clash of Lean keywords). A key ending in `m` is treated as minor;
the lookup key gets an `m` suffix for minor scale types; when the direct
lookup fails the enharmonic alias is tried; when both fail the function
returns `None` (the source comments: this might happen if a non-standard
key is provided). It never raises. -/
def get_camelot_code (key : String) (scale_type : String) : Option String :=
  let km := if endsWithChar key 'm' then (dropRight1 key, "minor") else (key, scale_type)
  let key := km.1
  let scale_type := km.2
  let key_str := if scale_type == "minor" then key ++ "m" else key
  match lookupStr key_to_camelot key_str with
  | some c => some c
  | none =>
    match lookupStr enharmonic_map key with
    | some enharmonic_key =>
      let enharmonic_key_str :=
        if scale_type == "minor" then enharmonic_key ++ "m" else enharmonic_key
      lookupStr key_to_camelot enharmonic_key_str
    | none => none

/-- Model of the Python built-in `int(s)` for the shapes exercised here: an
optional sign followed by one or more decimal digits (surrounding
whitespace and underscore separators are not modelled); anything else
raises `ValueError`, the `none` case. -/
def pyInt? (s : String) : Option ℤ :=
  let core : List Char → Option ℕ := fun t =>
    if t ≠ [] ∧ t.all Char.isDigit
    then some (t.foldl (fun a c => a * 10 + (c.toNat - 48)) 0)
    else none
  match s.toList with
  | '-' :: rest => (core rest).map (fun n => -(n : ℤ))
  | '+' :: rest => (core rest).map (fun n => (n : ℤ))
  | l => (core l).map (fun n => (n : ℤ))

/-- `WesternMusic.get_key_from_camelot(camelot_notation)`: parses
`f"{number}{position}"`, validates, and reads the wheel; returns the pair
`(key, scale_type)`. All failures are raised `ValueError`s. -/
def get_key_from_camelot (code : String) : Except String (String × String) :=
  if code.length < 2 then
    .error "Invalid Camelot notation. Format should be like \x278B\x27."
  else
    match pyInt? (dropRight1 code) with
    | none => .error ("ValueError: invalid literal for int(): " ++ dropRight1 code)
    | some number =>
      let position := (code.toList.getLastD ' ').toUpper
      if position ≠ 'A' ∧ position ≠ 'B' then
        .error "Invalid Camelot position. Should be \x27A\x27 or \x27B\x27."
      else if number < 1 ∨ 12 < number then
        .error "Invalid Camelot number. Should be between 1 and 12."
      else
        let key := (lookupZ (if position == 'A' then camelot_wheel_A else camelot_wheel_B)
          number).getD ""
        if position == 'A' then .ok (dropRight1 key, "minor")
        else .ok (key, "major")

/-- The `'m' if scale_type == 'minor' else ''` suffix used when labelling
compatible keys. -/
def keyLabel (p : String × String) : String :=
  p.1 ++ (if p.2 == "minor" then "m" else "")

/-- `WesternMusic.get_compatible_keys(camelot_notation)`: the four
harmonically compatible wheel positions (relative key, the two adjacent
numbers on the same letter, and the diagonal), with 1-based wraparound
`(n + adj) % 12` remapping `0` to `12`. The result keeps the insertion
order of the Python dict: relative, number-1, number+1, diagonal. -/
def get_compatible_keys (code : String) : Except String (List (String × String)) :=
  if code.length < 2 then
    .error "Invalid Camelot notation. Format should be like \x278B\x27."
  else
    match pyInt? (dropRight1 code) with
    | none => .error ("ValueError: invalid literal for int(): " ++ dropRight1 code)
    | some number =>
      let position := (code.toList.getLastD ' ').toUpper
      if position ≠ 'A' ∧ position ≠ 'B' then
        .error "Invalid Camelot position. Should be \x27A\x27 or \x27B\x27."
      else if number < 1 ∨ 12 < number then
        .error "Invalid Camelot number. Should be between 1 and 12."
      else do
        let same_position := String.singleton position
        let opposite_position := if position = 'B' then "A" else "B"
        let wrap : ℤ → ℤ := fun m => if m % 12 == 0 then 12 else m % 12
        let relative_key := toString number ++ opposite_position
        let k1 ← get_key_from_camelot relative_key
        let adj_key_minus := toString (wrap (number + -1)) ++ same_position
        let k2 ← get_key_from_camelot adj_key_minus
        let adj_key_plus := toString (wrap (number + 1)) ++ same_position
        let k3 ← get_key_from_camelot adj_key_plus
        let diagonal_key := toString (wrap (number + 1)) ++ opposite_position
        let k4 ← get_key_from_camelot diagonal_key
        .ok [(relative_key, keyLabel k1),
             (adj_key_minus, keyLabel k2),
             (adj_key_plus, keyLabel k3),
             (diagonal_key, keyLabel k4)]

/-! ## IndianMusic (`indian.py`) -/

/-- `IndianMusic.shruti_ratios`: the static 22-entry just-intonation ratio
table (exact rationals). -/
def shruti_ratios : List (ℤ × ℚ) :=
  [(1, 1), (2, 256/243), (3, 16/15), (4, 10/9), (5, 9/8),
   (6, 32/27), (7, 6/5), (8, 5/4), (9, 81/64), (10, 4/3),
   (11, 27/20), (12, 45/32), (13, 729/512), (14, 3/2), (15, 128/81),
   (16, 8/5), (17, 5/3), (18, 27/16), (19, 16/9), (20, 9/5),
   (21, 15/8), (22, 243/128)]

/-- `IndianMusic.get_shruti_frequency(shruti_number)`: range-checks the
shruti number, then returns `reference_sa * ratio`. -/
def get_shruti_frequency (ref : ℚ) (shruti_number : ℤ) : Except String ℚ :=
  if shruti_number < 1 ∨ 22 < shruti_number then
    .error "Shruti number must be between 1 and 22"
  else
    match lookupZ shruti_ratios shruti_number with
    | some r => .ok (ref * r)
    | none => .error "KeyError"

/-- A value of `IndianMusic.swara_to_shruti`: either a bare shruti number
(Sa, Pa) or a dict of named variants. -/
inductive SwaraEntry where
  | plain (n : ℤ)
  | variants (m : List (String × ℤ))
deriving DecidableEq

/-- `IndianMusic.swara_to_shruti`. -/
def swara_to_shruti : List (String × SwaraEntry) :=
  [("Sa", .plain 1),
   ("Re", .variants [("komal", 3), ("shuddha", 5)]),
   ("Ga", .variants [("komal", 6), ("shuddha", 8)]),
   ("Ma", .variants [("shuddha", 10), ("tivra", 13)]),
   ("Pa", .plain 14),
   ("Dha", .variants [("komal", 16), ("shuddha", 17)]),
   ("Ni", .variants [("komal", 19), ("shuddha", 21)])]

/-- `IndianMusic.get_swara_frequency(swara, variant)`: Sa and Pa read their
shruti number directly (the variant argument is never consulted); the other
swaras validate the variant against their variant dict, raising a
`ValueError` naming the available variants. Unknown swaras hit
`swara_to_shruti[swara]`, an uncaught `KeyError`. -/
def get_swara_frequency (ref : ℚ) (swara : String) (variant : String) :
    Except String ℚ :=
  if swara == "Sa" || swara == "Pa" then
    match lookupV swara_to_shruti swara with
    | some (.plain n) => get_shruti_frequency ref n
    | _ => .error ("KeyError: " ++ swara)
  else
    match lookupV swara_to_shruti swara with
    | none => .error ("KeyError: " ++ swara)
    | some (.plain _) => .error ("TypeError: argument of type int is not iterable")
    | some (.variants m) =>
      if (m.find? (fun p => p.1 == variant)).isNone then
        .error ("Invalid variant \x27" ++ variant ++ "\x27 for " ++ swara ++
          ". Available: " ++ String.intercalate ", " (m.map Prod.fst))
      else
        match lookupV m variant with
        | some n => get_shruti_frequency ref n
        | none => .error "KeyError"

/-- `IndianMusic.ragas`: the five built-in raga specifications. -/
def ragas : List (String × List (String × String)) :=
  [("Bhairav",
    [("Sa", "shuddha"), ("Re", "komal"), ("Ga", "shuddha"), ("Ma", "shuddha"),
     ("Pa", "shuddha"), ("Dha", "komal"), ("Ni", "shuddha")]),
   ("Yaman",
    [("Sa", "shuddha"), ("Re", "shuddha"), ("Ga", "shuddha"), ("Ma", "tivra"),
     ("Pa", "shuddha"), ("Dha", "shuddha"), ("Ni", "shuddha")]),
   ("Bhairavi",
    [("Sa", "shuddha"), ("Re", "komal"), ("Ga", "komal"), ("Ma", "shuddha"),
     ("Pa", "shuddha"), ("Dha", "komal"), ("Ni", "komal")]),
   ("Todi",
    [("Sa", "shuddha"), ("Re", "komal"), ("Ga", "komal"), ("Ma", "tivra"),
     ("Pa", "shuddha"), ("Dha", "komal"), ("Ni", "komal")]),
   ("Kafi",
    [("Sa", "shuddha"), ("Re", "shuddha"), ("Ga", "komal"), ("Ma", "shuddha"),
     ("Pa", "shuddha"), ("Dha", "shuddha"), ("Ni", "komal")])]

/-- `IndianMusic.get_raga(raga_name)`. -/
def get_raga (raga_name : String) : Except String (List (String × String)) :=
  match lookupV ragas raga_name with
  | none => .error ("Unknown raga: " ++ raga_name ++ ". Available ragas: " ++
      String.intercalate ", " (ragas.map Prod.fst))
  | some spec => .ok spec

/-- One entry of `IndianMusic.calculate_raga_frequencies`: Sa and Pa have
their variant forced to `"shuddha"` before the swara lookup and the label
is `f"{swara} {variant}"`. -/
def ragaEntry (ref : ℚ) (sv : String × String) : Except String (String × ℚ) :=
  let variant := if sv.1 == "Sa" || sv.1 == "Pa" then "shuddha" else sv.2
  match get_swara_frequency ref sv.1 variant with
  | .ok f => .ok (sv.1 ++ " " ++ variant, f)
  | .error e => .error e

/-- `IndianMusic.calculate_raga_frequencies(raga_name)`. -/
def calculate_raga_frequencies (ref : ℚ) (raga_name : String) :
    Except String (List (String × ℚ)) :=
  match get_raga raga_name with
  | .error e => .error e
  | .ok spec => spec.mapM (ragaEntry ref)

/-! ## WesternModes (`modes.py`) -/

/-- `WesternModes.modes`: interval vectors of the 7 diatonic modes. -/
def modes : List (String × List ℕ) :=
  [("Ionian", [0, 2, 4, 5, 7, 9, 11]),
   ("Dorian", [0, 2, 3, 5, 7, 9, 10]),
   ("Phrygian", [0, 1, 3, 5, 7, 8, 10]),
   ("Lydian", [0, 2, 4, 6, 7, 9, 11]),
   ("Mixolydian", [0, 2, 4, 5, 7, 9, 10]),
   ("Aeolian", [0, 2, 3, 5, 7, 8, 10]),
   ("Locrian", [0, 1, 3, 5, 6, 8, 10])]

/-- The 7 mode names, in declaration order (keys of `WesternModes.modes`,
`modal_emotions` and `compatible_transitions` alike). -/
def modeNames : List String :=
  ["Ionian", "Dorian", "Phrygian", "Lydian", "Mixolydian", "Aeolian", "Locrian"]

/-- `WesternModes.get_mode_intervals(mode_name)`. -/
def get_mode_intervals (mode_name : String) : Except String (List ℕ) :=
  match lookupV modes mode_name with
  | none => .error ("Unknown mode: " ++ mode_name ++ ". Available modes: " ++
      String.intercalate ", " (modes.map Prod.fst))
  | some l => .ok l

/-- `WesternModes.get_mode_frequencies(mode_name, root_note, octave)`: like
`get_scale`, the root is indexed in `self.western.notes` directly with no
enharmonic normalization. -/
def get_mode_frequencies (ref : ℚ) (mode_name : String) (root_note : String)
    (octave : ℤ) : Except String (List (String × (ℚ × ℤ))) :=
  match get_mode_intervals mode_name with
  | .error e => .error e
  | .ok intervals =>
    match indexOfStr? notes root_note with
    | none => .error ("ValueError: " ++ root_note ++ " is not in list")
    | some root_index => intervals.mapM (scaleEntry ref root_index octave)

/-- `WesternModes.compatible_transitions`: the directed emotional adjacency
over modes (deliberately asymmetric). -/
def mode_transitions : List (String × List String) :=
  [("Ionian", ["Mixolydian", "Lydian", "Dorian"]),
   ("Dorian", ["Aeolian", "Phrygian", "Mixolydian", "Ionian"]),
   ("Phrygian", ["Aeolian", "Dorian", "Locrian"]),
   ("Lydian", ["Ionian", "Mixolydian", "Dorian", "Aeolian"]),
   ("Mixolydian", ["Ionian", "Dorian", "Lydian", "Aeolian"]),
   ("Aeolian", ["Dorian", "Phrygian", "Mixolydian", "Lydian"]),
   ("Locrian", ["Phrygian"])]

/-! ## NavarasaMap (`navarasa.py`) -/

/-- The 9 rasa names, in declaration order (keys of `NavarasaMap.rasas`,
`rasa_ragas`, `compatible_transitions` and `energy_levels` alike). -/
def rasaNames : List String :=
  ["Sringara", "Haasya", "Karuna", "Raudra", "Veera",
   "Bhayaanaka", "Beebhatsa", "Adbutham", "Saantha"]

/-- `NavarasaMap.rasa_ragas`: ragas traditionally associated with each
rasa. -/
def rasa_ragas : List (String × List String) :=
  [("Sringara", ["Yaman", "Behag", "Hameer", "Tilak Kamod", "Desh"]),
   ("Haasya", ["Durga", "Pahadi", "Jog", "Nat Kamod", "Bahar"]),
   ("Karuna", ["Bhairavi", "Malkauns", "Bageshri", "Todi", "Bilaskhani Todi"]),
   ("Raudra", ["Bhairav", "Marwa", "Chandrakauns", "Shree", "Hindol"]),
   ("Veera", ["Bilawal", "Darbari", "Jaijaiwanti", "Maand", "Kedar"]),
   ("Bhayaanaka", ["Shree", "Purvi", "Gauri", "Lalit", "Vrindavani Sarang"]),
   ("Beebhatsa", ["Todi", "Komal Rishabh Asavari", "Bhimpalasi", "Jogiya", "Vibhas"]),
   ("Adbutham", ["Darbari", "Miyan Ki Malhar", "Champakali", "Madhuvanti", "Gaud Sarang"]),
   ("Saantha", ["Bhimpalasi", "Jaunpuri", "Ahir Bhairav", "Bairagi", "Pahadi"])]

/-- `NavarasaMap.compatible_transitions`: the directed emotional adjacency
over rasas. -/
def rasa_transitions : List (String × List String) :=
  [("Sringara", ["Haasya", "Adbutham", "Saantha", "Karuna"]),
   ("Haasya", ["Sringara", "Veera", "Adbutham", "Saantha"]),
   ("Karuna", ["Saantha", "Sringara", "Bhayaanaka", "Beebhatsa", "Veera"]),
   ("Raudra", ["Veera", "Bhayaanaka", "Beebhatsa"]),
   ("Veera", ["Raudra", "Haasya", "Adbutham", "Sringara", "Karuna"]),
   ("Bhayaanaka", ["Raudra", "Karuna", "Beebhatsa"]),
   ("Beebhatsa", ["Bhayaanaka", "Raudra", "Karuna"]),
   ("Adbutham", ["Sringara", "Veera", "Haasya", "Saantha"]),
   ("Saantha", ["Karuna", "Sringara", "Adbutham", "Haasya"])]

/-- `NavarasaMap.get_rasa_from_raga(raga)`: scans `rasa_ragas` in order and
collects every rasa whose raga list contains the raga; an empty result is
an ordinary value, not an error. -/
def get_rasa_from_raga (raga : String) : List String :=
  ((rasa_ragas.filter (fun p => raga ∈ p.2)).map Prod.fst)

/-- `NavarasaMap.raga_thaats`: raga to thaat classification. -/
def raga_thaats : List (String × String) :=
  [("Yaman", "Kalyan"), ("Bhairav", "Bhairav"), ("Bhairavi", "Bhairavi"),
   ("Todi", "Todi"), ("Bilawal", "Bilawal"), ("Kafi", "Kafi"),
   ("Asavari", "Asavari"), ("Marwa", "Marwa"), ("Purvi", "Purvi"),
   ("Desh", "Khamaj"), ("Malkauns", "Bhairavi"), ("Darbari", "Asavari"),
   ("Bageshri", "Kafi"), ("Durga", "Bilawal"), ("Jaunpuri", "Asavari"),
   ("Bhimpalasi", "Kafi"), ("Ahir Bhairav", "Bhairav"), ("Pahadi", "Bilawal"),
   ("Jog", "Kafi"), ("Kedar", "Kalyan"), ("Hameer", "Kalyan"),
   ("Chandrakauns", "Bhairavi"), ("Miyan Ki Malhar", "Kafi"),
   ("Tilak Kamod", "Khamaj"), ("Shree", "Purvi"), ("Bairagi", "Bhairav"),
   ("Nat Kamod", "Khamaj"), ("Hindol", "Kalyan"), ("Jaijaiwanti", "Khamaj"),
   ("Lalit", "Marwa"), ("Bahar", "Kafi"), ("Gauri", "Bhairav"),
   ("Vibhas", "Bhairav"), ("Maand", "Bilawal"), ("Vrindavani Sarang", "Kafi"),
   ("Gaud Sarang", "Bilawal"), ("Jogiya", "Bhairav"),
   ("Komal Rishabh Asavari", "Asavari"), ("Bilaskhani Todi", "Todi"),
   ("Champakali", "Khamaj"), ("Madhuvanti", "Todi")]

/-- `NavarasaMap.thaat_western_map`: thaat to Western scale name. -/
def thaat_western_map : List (String × String) :=
  [("Bilawal", "Major"), ("Khamaj", "Mixolydian"), ("Kafi", "Dorian"),
   ("Asavari", "Natural Minor"), ("Bhairavi", "Phrygian"),
   ("Bhairav", "Double Harmonic Major"), ("Kalyan", "Lydian"),
   ("Marwa", "Marwa (no Western equivalent)"),
   ("Purvi", "Purvi (no Western equivalent)"),
   ("Todi", "Todi (no Western equivalent)")]

/-- `NavarasaMap.western_correlations`: Western musical qualities for each
rasa. -/
def western_correlations : List (String × List String) :=
  [("Sringara", ["Major", "Lydian", "major 7th chords"]),
   ("Haasya", ["Major pentatonic", "Mixolydian", "dominant 7th chords"]),
   ("Karuna", ["Minor", "Phrygian", "minor 7th chords"]),
   ("Raudra", ["Diminished", "Locrian", "diminished chords"]),
   ("Veera", ["Major", "Lydian dominant", "sus4 chords"]),
   ("Bhayaanaka", ["Half-diminished", "Locrian", "minor 7♭5 chords"]),
   ("Beebhatsa", ["Altered dominant", "Phrygian dominant", "altered chords"]),
   ("Adbutham", ["Augmented", "Whole tone", "augmented chords"]),
   ("Saantha", ["Natural minor", "Dorian", "minor 9th chords"])]

/-- The `thaat_to_key_map` local to
`NavarasaMap.get_western_equivalent`. -/
def thaat_to_key_map : List (String × String) :=
  [("Bilawal", "C"), ("Khamaj", "G"), ("Kafi", "D"), ("Asavari", "A"),
   ("Bhairavi", "E"), ("Bhairav", "C"), ("Kalyan", "F"), ("Marwa", "C"),
   ("Purvi", "C"), ("Todi", "D")]

/-- `NavarasaMap.get_raga_thaat(raga_name)`: `dict.get`, so an unknown raga
yields `None` rather than an error. -/
def get_raga_thaat (raga_name : String) : Option String :=
  lookupStr raga_thaats raga_name

/-- The result shape of `NavarasaMap.get_western_equivalent`: either the
descriptive no-equivalent message dict, or the full information dict. -/
inductive WesternEquiv where
  | noEquiv (message : String)
  | equiv (raga thaat scale_type suggested_key : String)
      (camelot : Option String) (compatible : List (String × String))
      (rasas : List String) (correlations : List String)
deriving DecidableEq

/-- First-occurrence deduplication standing in for Python
`list(set(...))` (whose iteration order is implementation-defined; no claim
depends on the order of `western_correlations` in the result). -/
def dedupFirst (l : List String) : List String :=
  l.foldl (fun acc x => if x ∈ acc then acc else acc ++ [x]) []

/-- `NavarasaMap.get_western_equivalent(raga_name)`: raga → thaat → Western
scale name → suggested key → Camelot position and compatible keys. Missing
thaat information or a missing Western mapping yields a descriptive
`noEquiv` message; nothing in the function catches or raises otherwise,
except that a failure of the inner `get_compatible_keys` call would
propagate (the proofs show it never fails). -/
def get_western_equivalent (raga_name : String) : Except String WesternEquiv :=
  match get_raga_thaat raga_name with
  | none => .ok (.noEquiv ("No thaat information available for " ++ raga_name))
  | some thaat =>
    match lookupStr thaat_western_map thaat with
    | none => .ok (.noEquiv ("No Western equivalent for thaat " ++ thaat))
    | some western_scale =>
      let rasas := get_rasa_from_raga raga_name
      let western_qualities :=
        dedupFirst (rasas.flatMap (fun r => (lookupV western_correlations r).getD []))
      let key := (lookupStr thaat_to_key_map thaat).getD "C"
      let camelot_scale_type :=
        if western_scale ∈ ["Natural Minor", "Phrygian", "Dorian"]
        then "minor" else "major"
      match get_camelot_code key camelot_scale_type with
      | some cn =>
        match get_compatible_keys cn with
        | .ok compatible =>
          .ok (.equiv raga_name thaat western_scale key (some cn) compatible
            rasas western_qualities)
        | .error e => .error e
      | none =>
        .ok (.equiv raga_name thaat western_scale key none [] rasas
          western_qualities)

/-! ## The transition-path search (`suggest_transition_path`)

`WesternModes.suggest_transition_path` and
`NavarasaMap.suggest_transition_path` are textually identical up to the
node tables, so the loop is embedded once, parameterized by the adjacency
function, and instantiated twice. -/

/-- Adjacency function of an adjacency table:
`self.compatible_transitions[node]` (nodes outside the table never occur in
a run started from a valid node; they are given the empty adjacency). -/
def adjOf (table : List (String × List String)) (node : String) : List String :=
  (lookupV table node).getD []

/-- The inner `for next_node in self.compatible_transitions[current]` loop:
each unvisited neighbor is marked visited and its extended path appended to
the queue, in adjacency-declaration order. -/
def enqueueNew (neighbors : List String) (path : List String)
    (visited : List String) (queue : List (List String)) :
    List String × List (List String) :=
  neighbors.foldl
    (fun vq n =>
      if n ∈ vq.1 then vq else (vq.1 ++ [n], vq.2 ++ [path ++ [n]]))
    (visited, queue)

/-- The `while queue:` loop of `suggest_transition_path`: pop the front
path; return it if it ends at the target; drop it if it already has
`max_steps` nodes; otherwise extend it by the unvisited neighbors of its
last node. The `fuel` argument only forces termination: a run from a valid
start dequeues at most `1 + (number of nodes)` paths, far below the fuel
the instances pass. -/
def bfsLoop (adj : String → List String) (endNode : String) (maxSteps : ℕ) :
    ℕ → List String → List (List String) → Option (List String)
  | 0, _, _ => none
  | _ + 1, _, [] => none
  | fuel + 1, visited, path :: rest =>
    let current := path.getLastD ""
    if current = endNode then some path
    else if maxSteps ≤ path.length then bfsLoop adj endNode maxSteps fuel visited rest
    else
      let vq := enqueueNew (adj current) path visited rest
      bfsLoop adj endNode maxSteps fuel vq.1 vq.2

/-- `suggest_transition_path(start, end, max_steps)` (both classes): the
start node is validated against the transition table and the end node
against the info table (for both classes these hold exactly the node
names); an equal pair returns `[start]` before the search; otherwise a
breadth-first search with visited-marking at enqueue time runs until the
queue empties. `.ok none` is Python `None` (no path found). -/
def suggest_transition_path (table : List (String × List String))
    (endNodes : List String) (start endNode : String) (maxSteps : ℕ) :
    Except String (Option (List String)) :=
  if (table.find? (fun p => p.1 == start)).isNone then
    .error ("Unknown starting node: " ++ start)
  else if endNode ∉ endNodes then
    .error ("Unknown ending node: " ++ endNode)
  else if start = endNode then .ok (some [start])
  else .ok (bfsLoop (adjOf table) endNode maxSteps 64 [start] [[start]])

/-- `WesternModes.suggest_transition_path`. -/
def suggest_transition_path_modes (start endMode : String) (maxSteps : ℕ) :
    Except String (Option (List String)) :=
  suggest_transition_path mode_transitions modeNames start endMode maxSteps

/-- `NavarasaMap.suggest_transition_path`. -/
def suggest_transition_path_rasas (start endRasa : String) (maxSteps : ℕ) :
    Except String (Option (List String)) :=
  suggest_transition_path rasa_transitions rasaNames start endRasa maxSteps

/-! ### Path and reachability vocabulary used to state the claims -/

/-- `q` is a chain of directed edges of `adj` (consecutive members are
neighbor pairs). -/
def chainB (adj : String → List String) : List String → Bool
  | [] => true
  | [_] => true
  | a :: b :: rest => b ∈ adj a && chainB adj (b :: rest)

/-- `q` is a directed path from `s` to `e`. -/
def isPathFrom (adj : String → List String) (s e : String) (q : List String) : Prop :=
  q.head? = some s ∧ q.getLast? = some e ∧ chainB adj q = true

/-- One round of neighbor expansion: append the unseen successors. -/
def reachStep (adj : String → List String) (l : List String) : List String :=
  l ++ (l.flatMap adj).filter (fun x => x ∉ l)

/-- Nodes reachable from `s` in at most `m` edges. -/
def reachN (adj : String → List String) (s : String) : ℕ → List String
  | 0 => [s]
  | m + 1 => reachStep adj (reachN adj s m)

/-- One entry of the finite search check: at `(s, e, k)` the result of the
search is no error; a `none` means `e` is not within `k - 1` edges of `s`;
a returned path runs from `s` to `e` along edges, has at most
`max k 1` nodes, and its length is exactly one more than the least edge
count reaching `e`. -/
def stpEntry (table : List (String × List String)) (endNodes : List String)
    (s e : String) (k : ℕ) : Bool :=
  match suggest_transition_path table endNodes s e k with
  | .error _ => false
  | .ok none => decide (e ∉ reachN (adjOf table) s (k - 1))
  | .ok (some p) =>
    chainB (adjOf table) p && (p.head? == some s) && (p.getLast? == some e) &&
    decide (p.length ≤ max k 1) &&
    decide (e ∈ reachN (adjOf table) s (p.length - 1)) &&
    (decide (p.length = 1) || decide (e ∉ reachN (adjOf table) s (p.length - 2)))

/-- The per-instance finite check: every entry up to `max_steps =
(number of nodes)` holds, and one expansion round beyond `N - 1` adds
nothing (reachability has stabilized). -/
def stpCheck (table : List (String × List String)) (endNodes univ : List String) :
    Bool :=
  univ.all fun s =>
    (reachN (adjOf table) s univ.length == reachN (adjOf table) s (univ.length - 1)) &&
    univ.all fun e =>
      (List.range (univ.length + 1)).all fun k => stpEntry table endNodes s e k

/-! ### Vocabulary for stating the remaining claims -/

/-- Whether an `Except` result is a success. -/
def isOkB {ε α : Type} : Except ε α → Bool
  | .ok _ => true
  | .error _ => false

/-- The 34 valid `(key, scale_type)` pairs of the Camelot map: the 24
canonical wheel entries together with the registered enharmonic aliases of
their keys. -/
def camelotValidPairs : List (String × String) :=
  [("Ab", "major"), ("G#", "major"), ("Eb", "major"), ("D#", "major"),
   ("Bb", "major"), ("A#", "major"), ("F", "major"), ("C", "major"),
   ("G", "major"), ("D", "major"), ("A", "major"), ("E", "major"),
   ("B", "major"), ("F#", "major"), ("Gb", "major"), ("Db", "major"),
   ("C#", "major"),
   ("F", "minor"), ("C", "minor"), ("G", "minor"), ("D", "minor"),
   ("A", "minor"), ("E", "minor"), ("B", "minor"), ("F#", "minor"),
   ("Gb", "minor"), ("C#", "minor"), ("Db", "minor"), ("G#", "minor"),
   ("Ab", "minor"), ("D#", "minor"), ("Eb", "minor"), ("A#", "minor"),
   ("Bb", "minor")]

/-- Round-trip check for one `(key, scale_type)` pair: `to wheel position`
then `from wheel position` must reproduce the key up to enharmonic
equivalence (same canonical pitch-class index) with the same mode. -/
def camelotRoundtripB (pr : String × String) : Bool :=
  match get_camelot_code pr.1 pr.2 with
  | none => false
  | some code =>
    match get_key_from_camelot code with
    | .error _ => false
    | .ok kq =>
      (noteIndex? (normalizeNote kq.1) == noteIndex? (normalizeNote pr.1)) &&
      (noteIndex? (normalizeNote kq.1)).isSome && (kq.2 == pr.2)

/-- The 12 wheel numbers. -/
def wheelNumbers : List ℤ := [1, 2, 3, 4, 5, 6, 7, 8, 9, 10, 11, 12]

/-- 1-based wraparound: mod 12 with a result of 0 remapped to 12. -/
def wrap12 (m : ℤ) : ℤ := if m % 12 == 0 then 12 else m % 12

/-- The four compatible wheel positions required by the spec, in the
insertion order of `get_compatible_keys`: relative key, number − 1 on the
same letter, number + 1 on the same letter, number + 1 on the opposite
letter. -/
def expectedCompatible (n : ℤ) (pos : Char) : List String :=
  let opp := if pos = 'B' then "A" else "B"
  let same := String.singleton pos
  [toString n ++ opp,
   toString (wrap12 (n - 1)) ++ same,
   toString (wrap12 (n + 1)) ++ same,
   toString (wrap12 (n + 1)) ++ opp]

/-- Check of `get_compatible_keys` at one valid wheel position: it
succeeds, and its keys are exactly the four expected distinct positions. -/
def compatCheckB (n : ℤ) (pos : Char) : Bool :=
  match get_compatible_keys (toString n ++ String.singleton pos) with
  | .error _ => false
  | .ok l =>
    (l.map Prod.fst == expectedCompatible n pos) && (l.length == 4) &&
    decide (l.map Prod.fst).Nodup

/-- The wheel positions returned by `get_compatible_keys` (empty on
error). -/
def compatPositions (code : String) : List String :=
  match get_compatible_keys code with
  | .ok l => l.map Prod.fst
  | .error _ => []

/-- The inner computation of `get_western_equivalent` after the thaat is
known never fails: the suggested key always has a Camelot position whose
compatible keys resolve. -/
def thaatOkB (thaat : String) : Bool :=
  match lookupStr thaat_western_map thaat with
  | none => true
  | some western_scale =>
    let key := (lookupStr thaat_to_key_map thaat).getD "C"
    let camelot_scale_type :=
      if western_scale ∈ ["Natural Minor", "Phrygian", "Dorian"]
      then "minor" else "major"
    match get_camelot_code key camelot_scale_type with
    | none => true
    | some cn => isOkB (get_compatible_keys cn)

/-- One level of the spec-side path enumeration: every path of the level
extended by each neighbor of its last node not already on the path, in
adjacency-declaration order. -/
def expandSimple (adj : String → List String) (level : List (List String)) :
    List (List String) :=
  level.flatMap (fun p =>
    ((adj (p.getLastD "")).filter (fun x => x ∉ p)).map (fun x => p ++ [x]))

/-- The first path of the breadth-first enumeration of duplicate-free
paths that ends at `e`: levels are scanned in order, so this is the
shortest path to `e`, and within its level the first in lexicographic
order of adjacency-declaration positions. `none` when `fuel` levels do
not reach `e`. -/
def specFirstGo (adj : String → List String) (e : String) :
    ℕ → List (List String) → Option (List String)
  | 0, _ => none
  | n + 1, level =>
    match level.find? (fun p => p.getLastD "" == e) with
    | some p => some p
    | none => specFirstGo adj e n (expandSimple adj level)

/-- The shortest path from `s` to `e` with ties broken by adjacency
declaration order (the breadth-first choice), ignoring any step bound. -/
def specFirstPath (adj : String → List String) (s e : String) (fuel : ℕ) :
    Option (List String) :=
  specFirstGo adj e fuel [[s]]

/-- Modelled from the spec's words, independently of the implementation's
visited-set optimization: the path "BFS with FIFO queue, tie-break by
adjacency declaration order" must return — the shortest, declaration-order
first path from `s` to `e`, provided it fits the node bound `max k 1`
(shorter paths to `e` than the first one found do not exist, so a bound
violated by it is violated by every path to `e`). -/
def specShortestPath (adj : String → List String) (s e : String)
    (fuel k : ℕ) : Option (List String) :=
  match specFirstPath adj s e fuel with
  | some p => if p.length ≤ max k 1 then some p else none
  | none => none

/-- The per-instance finite check of the tie-break property: for every
pair of nodes, the breadth-first choice fits in the universe, and for
every `max_steps` up to the node count the search returns exactly the
path `specShortestPath` prescribes. -/
def stpLexCheck (table : List (String × List String))
    (endNodes univ : List String) : Bool :=
  univ.all fun s =>
    univ.all fun e =>
      match specFirstPath (adjOf table) s e univ.length with
      | some p =>
        decide (p.length ≤ univ.length) &&
        ((List.range (univ.length + 1)).all fun k =>
          match suggest_transition_path table endNodes s e k with
          | .ok o => o == (if p.length ≤ max k 1 then some p else none)
          | .error _ => false)
      | none =>
        (List.range (univ.length + 1)).all fun k =>
          match suggest_transition_path table endNodes s e k with
          | .ok o => o == none
          | .error _ => false

/-! ### Generic lemmas about the search -/

/-- `enqueueNew` appends a duplicate-free batch of previously unvisited
neighbors to the visited set, and the corresponding extended paths to the
queue. -/
theorem enqueueNew_spec (neighbors path : List String) :
    ∀ visited queue, ∃ new : List String,
      (enqueueNew neighbors path visited queue).1 = visited ++ new ∧
      (enqueueNew neighbors path visited queue).2 =
        queue ++ new.map (fun n => path ++ [n]) ∧
      (∀ n ∈ new, n ∈ neighbors ∧ n ∉ visited) ∧ new.Nodup := by
  induction neighbors with
  | nil =>
    intro visited queue
    exact ⟨[], by simp [enqueueNew], by simp [enqueueNew], by simp, List.nodup_nil⟩
  | cons n rest ih =>
    intro visited queue
    by_cases hn : n ∈ visited
    · obtain ⟨new, h1, h2, h3, h4⟩ := ih visited queue
      refine ⟨new, ?_, ?_, ?_, h4⟩
      · simpa [enqueueNew, hn] using h1
      · simpa [enqueueNew, hn] using h2
      · exact fun x hx => ⟨List.mem_cons_of_mem _ (h3 x hx).1, (h3 x hx).2⟩
    · obtain ⟨new, h1, h2, h3, h4⟩ := ih (visited ++ [n]) (queue ++ [path ++ [n]])
      refine ⟨n :: new, ?_, ?_, ?_, ?_⟩
      · simpa [enqueueNew, hn, List.append_assoc] using h1
      · simpa [enqueueNew, hn, List.append_assoc] using h2
      · intro x hx
        rcases List.mem_cons.mp hx with rfl | hx
        · exact ⟨List.mem_cons_self _ _, hn⟩
        · refine ⟨List.mem_cons_of_mem _ (h3 x hx).1, fun hv => (h3 x hx).2 ?_⟩
          exact List.mem_append_left _ hv
      · refine List.nodup_cons.mpr ⟨fun hmem => ?_, h4⟩
        exact (h3 n hmem).2 (List.mem_append_right _ (List.mem_singleton.mpr rfl))

/-- When every neighbor is already visited, `enqueueNew` changes nothing. -/
theorem enqueueNew_of_visited (neighbors path : List String) :
    ∀ visited queue, (∀ n ∈ neighbors, n ∈ visited) →
      enqueueNew neighbors path visited queue = (visited, queue) := by
  intro visited queue h
  obtain ⟨new, h1, h2, h3, _⟩ := enqueueNew_spec neighbors path visited queue
  have hnew : new = [] := by
    cases new with
    | nil => rfl
    | cons x xs =>
      exact absurd (h x (h3 x (List.mem_cons_self x xs)).1)
        (h3 x (List.mem_cons_self x xs)).2
  subst hnew
  exact Prod.ext (by simpa using h1) (by simpa using h2)

/-- Every `reachN` level contains the previous one. -/
theorem reachN_subset_succ (adj : String → List String) (s : String) (m : ℕ) :
    ∀ x ∈ reachN adj s m, x ∈ reachN adj s (m + 1) := by
  intro x hx
  exact List.mem_append_left _ hx

/-- `reachN` levels are monotone in the step bound. -/
theorem reachN_mono (adj : String → List String) (s : String) {m m' : ℕ}
    (h : m ≤ m') : ∀ x ∈ reachN adj s m, x ∈ reachN adj s m' := by
  induction m' with
  | zero => intro x hx; simpa [Nat.le_zero.mp h] using hx
  | succ j ih =>
    intro x hx
    rcases Nat.lt_or_ge m (j + 1) with hlt | hge
    · exact reachN_subset_succ adj s j x (ih (Nat.lt_succ_iff.mp hlt) x hx)
    · have : m = j + 1 := Nat.le_antisymm h hge
      simpa [this] using hx

/-- The start node is in every `reachN` level. -/
theorem self_mem_reachN (adj : String → List String) (s : String) (m : ℕ) :
    s ∈ reachN adj s m :=
  reachN_mono adj s (Nat.zero_le m) s (by simp [reachN])

/-- Once one expansion round adds nothing, all later rounds agree. -/
theorem reachN_stab (adj : String → List String) (s : String) (m : ℕ)
    (h : reachN adj s (m + 1) = reachN adj s m) :
    ∀ j, m ≤ j → reachN adj s j = reachN adj s m := by
  intro j hj
  induction j with
  | zero => simp [Nat.le_zero.mp hj]
  | succ i ih =>
    rcases Nat.lt_or_ge m (i + 1) with hlt | hge
    · have hmi : m ≤ i := Nat.lt_succ_iff.mp hlt
      calc reachN adj s (i + 1) = reachStep adj (reachN adj s i) := rfl
        _ = reachStep adj (reachN adj s m) := by rw [ih hmi]
        _ = reachN adj s (m + 1) := rfl
        _ = reachN adj s m := h
    · simp [Nat.le_antisymm hj hge]

/-- A new member of `reachStep` witnessed by an edge. -/
theorem mem_reachStep (adj : String → List String) (l : List String)
    {u x : String} (hu : u ∈ l) (hx : x ∈ adj u) : x ∈ reachStep adj l := by
  by_cases hxl : x ∈ l
  · exact List.mem_append_left _ hxl
  · refine List.mem_append_right _ (List.mem_filter.mpr ⟨?_, by simpa using hxl⟩)
    exact List.mem_flatMap.mpr ⟨u, hu, hx⟩

/-- Appending an adjacent node preserves being a chain. -/
theorem chainB_append_singleton (adj : String → List String) :
    ∀ (q : List String) (u v : String), chainB adj q = true →
      q.getLast? = some u → v ∈ adj u → chainB adj (q ++ [v]) = true := by
  intro q
  induction q with
  | nil => intro u v _ hlast _; simp at hlast
  | cons a rest ih =>
    intro u v hchain hlast hv
    cases rest with
    | nil =>
      simp at hlast
      subst hlast
      simpa [chainB] using hv
    | cons b rest' =>
      have hchain' : (b ∈ adj a) ∧ chainB adj (b :: rest') = true := by
        simpa [chainB] using hchain
      have hlast' : (b :: rest').getLast? = some u := by
        simpa [List.getLast?_cons_cons] using hlast
      have := ih u v hchain'.2 hlast' hv
      simpa [chainB, hchain'.1] using this

/-- Splitting a chain at its final edge. -/
theorem chainB_split_last (adj : String → List String) :
    ∀ (q : List String) (v : String), q ≠ [] →
      chainB adj (q ++ [v]) = true →
      chainB adj q = true ∧ ∀ u, q.getLast? = some u → v ∈ adj u := by
  intro q
  induction q with
  | nil => intro v h; exact absurd rfl h
  | cons a rest ih =>
    intro v _ hchain
    cases rest with
    | nil =>
      have : (v ∈ adj a) ∧ chainB adj [v] = true := by simpa [chainB] using hchain
      exact ⟨rfl, fun u hu => by simp at hu; subst hu; exact this.1⟩
    | cons b rest' =>
      have hsplit : (b ∈ adj a) ∧ chainB adj ((b :: rest') ++ [v]) = true := by
        simpa [chainB] using hchain
      obtain ⟨hq, hlast⟩ := ih v (by simp) hsplit.2
      refine ⟨by simpa [chainB, hsplit.1] using hq, fun u hu => ?_⟩
      exact hlast u (by simpa [List.getLast?_cons_cons] using hu)

/-- A nonempty list has a last element. -/
theorem getLast?_some_of_ne_nil :
    ∀ (l : List String), l ≠ [] → ∃ u, l.getLast? = some u := by
  intro l
  induction l with
  | nil => intro h; exact absurd rfl h
  | cons a rest ih =>
    intro _
    cases rest with
    | nil => exact ⟨a, rfl⟩
    | cons b r =>
      obtain ⟨u, hu⟩ := ih (by simp)
      exact ⟨u, by simpa [List.getLast?_cons_cons] using hu⟩

/-- Reachability in at most `m` edges is exactly the existence of a path of
at most `m + 1` nodes. -/
theorem mem_reachN_iff_path (adj : String → List String) (s x : String) (m : ℕ) :
    x ∈ reachN adj s m ↔
      ∃ q, isPathFrom adj s x q ∧ q.length ≤ m + 1 := by
  constructor
  · intro hx
    induction m generalizing x with
    | zero =>
      have : x = s := by simpa [reachN] using hx
      subst this
      exact ⟨[x], ⟨rfl, rfl, rfl⟩, by simp⟩
    | succ j ih =>
      rcases List.mem_append.mp hx with hold | hnew
      · obtain ⟨q, hq, hlen⟩ := ih x hold
        exact ⟨q, hq, Nat.le_succ_of_le hlen⟩
      · have hmem := (List.mem_filter.mp hnew).1
        obtain ⟨u, hu, hadj⟩ := List.mem_flatMap.mp hmem
        obtain ⟨q, ⟨hh, hl, hc⟩, hlen⟩ := ih u hu
        have hqne : q ≠ [] := by
          intro h; subst h; simp at hh
        refine ⟨q ++ [x], ⟨?_, ?_, ?_⟩, ?_⟩
        · rwa [List.head?_append_of_ne_nil _ hqne]
        · simp
        · exact chainB_append_singleton adj q u x hc hl hadj
        · simpa using Nat.add_le_add_right hlen 1
  · rintro ⟨q, hq, hlen⟩
    induction q using List.reverseRecOn generalizing x m with
    | nil => obtain ⟨hh, _, _⟩ := hq; simp at hh
    | append_singleton q' y ih =>
      obtain ⟨hh, hl, hc⟩ := hq
      have hyx : y = x := by simpa using hl
      subst hyx
      cases hq' : q' with
      | nil =>
        subst hq'
        have : y = s := by simpa using hh
        subst this
        exact self_mem_reachN adj y m
      | cons a rest =>
        have hne : q' ≠ [] := by rw [hq']; simp
        obtain ⟨hcq, hladj⟩ := chainB_split_last adj q' y hne hc
        have hq'h : q'.head? = some s := by
          rwa [List.head?_append_of_ne_nil _ hne] at hh
        obtain ⟨u, hu⟩ := getLast?_some_of_ne_nil q' hne
        have hm1 : 1 ≤ m := by
          have : 2 ≤ q'.length + 1 := by
            rw [hq']; simp [Nat.succ_le_succ, Nat.succ_le_of_lt, Nat.succ_pos]
          have hlen' : q'.length + 1 ≤ m + 1 := by simpa using hlen
          omega
        have hqlen : q'.length ≤ (m - 1) + 1 := by
          have hlen' : q'.length + 1 ≤ m + 1 := by simpa using hlen
          omega
        have hu_reach : u ∈ reachN adj s (m - 1) :=
          ih u (m - 1) ⟨hq'h, hu, hcq⟩ hqlen
        have : y ∈ reachN adj s ((m - 1) + 1) :=
          mem_reachStep adj _ hu_reach (hladj u hu)
        have hmm : (m - 1) + 1 = m := by omega
        rwa [hmm] at this

/-- Key stabilization property: once `max_steps` reaches the number of
nodes, raising it further cannot change the search result, because every
queued path is duplicate-free and drawn from the node universe, so the
length cut-off only ever discards paths that could not be extended
anyway. -/
theorem bfsLoop_maxSteps_stable (adj : String → List String)
    (univ : List String) (e : String)
    (hadjU : ∀ x, ∀ y ∈ adj x, y ∈ univ)
    (k : ℕ) (hk : univ.length ≤ k) :
    ∀ fuel (visited : List String) (queue : List (List String)),
      visited.Nodup → (∀ x ∈ visited, x ∈ univ) →
      (∀ p ∈ queue, p.Nodup ∧ ∀ x ∈ p, x ∈ visited) →
      bfsLoop adj e k fuel visited queue =
        bfsLoop adj e univ.length fuel visited queue := by
  intro fuel
  induction fuel with
  | zero => intro visited queue _ _ _; rfl
  | succ f ih =>
    intro visited queue hvnd hvU hq
    cases queue with
    | nil => rfl
    | cons p rest =>
      obtain ⟨hpnd, hpv⟩ := hq p (List.mem_cons_self p rest)
      have hrest : ∀ q ∈ rest, q.Nodup ∧ ∀ x ∈ q, x ∈ visited :=
        fun q hq' => hq q (List.mem_cons_of_mem p hq')
      have hpU : ∀ x ∈ p, x ∈ univ := fun x hx => hvU x (hpv x hx)
      have hplen : p.length ≤ univ.length :=
        (List.subperm_of_subset hpnd hpU).length_le
      by_cases hend : p.getLastD "" = e
      · simp only [bfsLoop]
        rw [if_pos hend, if_pos hend]
      · by_cases hbig : univ.length ≤ p.length
        · -- the path exhausts the universe, so its extension is empty
          have hpfull : p.length = univ.length := Nat.le_antisymm hplen hbig
          have hUp : ∀ y ∈ univ, y ∈ p := by
            intro y hy
            by_contra hyp
            have hnd' : (p ++ [y]).Nodup := by
              refine List.nodup_append.mpr ⟨hpnd, List.nodup_singleton y, ?_⟩
              intro a ha hb
              have : a = y := List.mem_singleton.mp hb
              subst this
              exact hyp ha
            have hsub : ∀ x ∈ p ++ [y], x ∈ univ := by
              intro x hx
              rcases List.mem_append.mp hx with h | h
              · exact hpU x h
              · simpa [List.mem_singleton.mp h] using hy
            have := (List.subperm_of_subset hnd' hsub).length_le
            simp [hpfull] at this
          have hvis : ∀ y ∈ adj (p.getLastD ""), y ∈ visited := by
            intro y hy
            exact hpv y (hUp y (hadjU _ y hy))
          have hext := enqueueNew_of_visited (adj (p.getLastD "")) p visited rest hvis
          rcases Nat.lt_or_ge p.length k with hlt | hge
          · -- left run extends (to nothing), right run discards: same state
            have hR : univ.length ≤ p.length := hbig
            simp only [bfsLoop, hend, if_neg hend, if_false]
            rw [if_neg (Nat.not_le.mpr hlt), if_pos hR, hext]
            exact ih visited rest hvnd hvU hrest
          · -- both discard
            have hL : k ≤ p.length := hge
            simp only [bfsLoop]
            rw [if_neg hend, if_neg hend, if_pos hL, if_pos hbig]
            exact ih visited rest hvnd hvU hrest
        · -- the path is strictly shorter than the universe: both runs extend
          have hsmall : p.length < univ.length := Nat.not_le.mp hbig
          have hnotk : ¬ k ≤ p.length := Nat.not_le.mpr (Nat.lt_of_lt_of_le hsmall hk)
          have hnotN : ¬ univ.length ≤ p.length := hbig
          obtain ⟨new, h1, h2, h3, h4⟩ :=
            enqueueNew_spec (adj (p.getLastD "")) p visited rest
          have hvnd' : (visited ++ new).Nodup := by
            refine List.nodup_append.mpr ⟨hvnd, h4, ?_⟩
            intro a ha hb
            exact (h3 a hb).2 ha
          have hvU' : ∀ x ∈ visited ++ new, x ∈ univ := by
            intro x hx
            rcases List.mem_append.mp hx with h | h
            · exact hvU x h
            · exact hadjU _ x (h3 x h).1
          have hq' : ∀ q ∈ rest ++ new.map (fun n => p ++ [n]),
              q.Nodup ∧ ∀ x ∈ q, x ∈ visited ++ new := by
            intro q hqmem
            rcases List.mem_append.mp hqmem with h | h
            · obtain ⟨hnd'', hsub''⟩ := hrest q h
              exact ⟨hnd'', fun x hx => List.mem_append_left _ (hsub'' x hx)⟩
            · obtain ⟨n, hn, rfl⟩ := List.mem_map.mp h
              refine ⟨?_, ?_⟩
              · refine List.nodup_append.mpr ⟨hpnd, List.nodup_singleton n, ?_⟩
                intro a ha hb
                have : a = n := List.mem_singleton.mp hb
                subst this
                exact (h3 a hn).2 (hpv a ha)
              · intro x hx
                rcases List.mem_append.mp hx with hh | hh
                · exact List.mem_append_left _ (hpv x hh)
                · have : x = n := List.mem_singleton.mp hh
                  subst this
                  exact List.mem_append_right _ hn
          simp only [bfsLoop]
          rw [if_neg hend, if_neg hend, if_neg hnotk, if_neg hnotN]
          have hfst : (enqueueNew (adj (p.getLastD "")) p visited rest).1 = visited ++ new := h1
          have hsnd : (enqueueNew (adj (p.getLastD "")) p visited rest).2 =
            rest ++ new.map (fun n => p ++ [n]) := h2
          rw [hfst, hsnd]
          exact ih (visited ++ new) (rest ++ new.map (fun n => p ++ [n])) hvnd' hvU' hq'

/-- On validated inputs, `suggest_transition_path` is the early-return or
the inner search. -/
theorem stp_eq_of_valid (table : List (String × List String))
    (endNodes : List String) (s e : String) (k : ℕ)
    (hs : (table.find? (fun p => p.1 == s)).isSome) (he : e ∈ endNodes) :
    suggest_transition_path table endNodes s e k =
      if s = e then .ok (some [s])
      else .ok (bfsLoop (adjOf table) e k 64 [s] [[s]]) := by
  unfold suggest_transition_path
  rcases Option.isSome_iff_exists.mp hs with ⟨v, hv⟩
  simp [hv, he]

/-- Past `max_steps = (number of nodes)`, the whole search is insensitive
to `max_steps`. -/
theorem stp_maxSteps_stable (table : List (String × List String))
    (endNodes univ : List String) (s e : String)
    (hadjU : ∀ x, ∀ y ∈ adjOf table x, y ∈ univ)
    (hs : s ∈ univ)
    (hstart : (table.find? (fun p => p.1 == s)).isSome)
    (hend : e ∈ endNodes)
    (k : ℕ) (hk : univ.length ≤ k) :
    suggest_transition_path table endNodes s e k =
      suggest_transition_path table endNodes s e univ.length := by
  rw [stp_eq_of_valid table endNodes s e k hstart hend,
    stp_eq_of_valid table endNodes s e univ.length hstart hend]
  by_cases hse : s = e
  · rw [if_pos hse, if_pos hse]
  · rw [if_neg hse, if_neg hse]
    have := bfsLoop_maxSteps_stable (adjOf table) univ e hadjU k hk 64 [s] [[s]]
      (List.nodup_singleton s)
      (by intro x hx; rw [List.mem_singleton.mp hx]; exact hs)
      (by
        intro p hp
        rw [List.mem_singleton.mp hp]
        exact ⟨List.nodup_singleton s, fun x hx => hx⟩)
    rw [this]

/-- A nonempty path starting at `s` shows `e` reachable within its own
edge count. -/
theorem path_reach_self (adj : String → List String) {s e : String}
    {q : List String} (hq : isPathFrom adj s e q) :
    e ∈ reachN adj s (q.length - 1) := by
  have hh := hq.1
  have hne : q ≠ [] := by intro h; subst h; simp at hh
  have h1 : 1 ≤ q.length := List.length_pos.mpr hne
  exact (mem_reachN_iff_path adj s e (q.length - 1)).mpr ⟨q, hq, by omega⟩

/-- What a true check entry says about the search result at one
`(s, e, k)`: any returned path is a genuine shortest path, and `none` is
returned exactly when no path within the bound exists. -/
theorem stpEntry_correct (table : List (String × List String))
    (endNodes : List String) (s e : String) (k : ℕ)
    (hentry : stpEntry table endNodes s e k = true) :
    (∀ p, suggest_transition_path table endNodes s e k = .ok (some p) →
      isPathFrom (adjOf table) s e p ∧
      ∀ q, isPathFrom (adjOf table) s e q → p.length ≤ q.length) ∧
    (suggest_transition_path table endNodes s e k = .ok none ↔
      ¬ ∃ q, isPathFrom (adjOf table) s e q ∧ q.length ≤ max k 1) := by
  unfold stpEntry at hentry
  cases hr : suggest_transition_path table endNodes s e k with
  | error msg => rw [hr] at hentry; simp at hentry
  | ok o =>
    cases o with
    | none =>
      rw [hr] at hentry
      have hnr : e ∉ reachN (adjOf table) s (k - 1) := by simpa using hentry
      constructor
      · intro p hp; simp at hp
      · constructor
        · rintro - ⟨q, hq, hlen⟩
          have hqr := path_reach_self (adjOf table) hq
          have hne : q ≠ [] := by
            intro h; subst h; obtain ⟨hh, -, -⟩ := hq; simp at hh
          have h1 : 1 ≤ q.length := List.length_pos.mpr hne
          have hbound : q.length - 1 ≤ k - 1 := by
            rcases Nat.eq_zero_or_pos k with hk0 | hkpos
            · subst hk0; simp [Nat.max_def] at hlen; omega
            · have : max k 1 = k := Nat.max_eq_left hkpos
              rw [this] at hlen; omega
          exact absurd (reachN_mono (adjOf table) s hbound e hqr) hnr
        · intro _; rfl
    | some p =>
      rw [hr] at hentry
      simp only [Bool.and_eq_true, Bool.or_eq_true, decide_eq_true_eq,
        beq_iff_eq] at hentry
      obtain ⟨⟨⟨⟨⟨hchain, hhead⟩, hlast⟩, hmax⟩, hreach⟩, hone⟩ := hentry
      have hpath : isPathFrom (adjOf table) s e p := ⟨hhead, hlast, hchain⟩
      constructor
      · intro p' hp'
        have hpp : p' = p := by
          have := Except.ok.inj hp'
          exact (Option.some.inj this).symm
        rw [hpp]
        refine ⟨hpath, fun q hq => ?_⟩
        by_contra hlt
        have hql : q.length < p.length := Nat.not_le.mp (fun h => hlt h)
        have hne : q ≠ [] := by
          intro h; subst h; obtain ⟨hh, -, -⟩ := hq; simp at hh
        have h1 : 1 ≤ q.length := List.length_pos.mpr hne
        rcases hone with hp1 | hnot2
        · omega
        · have hqr := path_reach_self (adjOf table) hq
          have hbound : q.length - 1 ≤ p.length - 2 := by omega
          exact hnot2 (reachN_mono (adjOf table) s hbound e hqr)
      · constructor
        · intro h; simp at h
        · intro hno
          exact absurd ⟨p, hpath, hmax⟩ hno

/-- The full correctness property of `suggest_transition_path`, for every
`max_steps`, derived from the finite check: the search returns `[start]`
when start and end coincide, any returned path is a shortest directed path
from start to end, and `None` comes back exactly when no path with at most
`max (max_steps, 1)` nodes (that is, at most `max_steps - 1` edges, apart
from the trivial one-node path) exists. -/
theorem stp_bridge (table : List (String × List String))
    (endNodes univ : List String)
    (hadjU : ∀ x, ∀ y ∈ adjOf table x, y ∈ univ)
    (hstart : ∀ x ∈ univ, (table.find? (fun p => p.1 == x)).isSome)
    (hend : ∀ x ∈ univ, x ∈ endNodes)
    (hchk : stpCheck table endNodes univ = true) :
    ∀ s ∈ univ, ∀ e ∈ univ, ∀ k : ℕ,
      (s = e → suggest_transition_path table endNodes s e k = .ok (some [s])) ∧
      (∀ p, suggest_transition_path table endNodes s e k = .ok (some p) →
        isPathFrom (adjOf table) s e p ∧
        ∀ q, isPathFrom (adjOf table) s e q → p.length ≤ q.length) ∧
      (suggest_transition_path table endNodes s e k = .ok none ↔
        ¬ ∃ q, isPathFrom (adjOf table) s e q ∧ q.length ≤ max k 1) := by
  intro s hs e he k
  have hN1 : 1 ≤ univ.length := by
    cases hu : univ with
    | nil => rw [hu] at hs; simp at hs
    | cons a rest => simp [hu]
  unfold stpCheck at hchk
  simp only [List.all_eq_true, Bool.and_eq_true] at hchk
  obtain ⟨hstab_b, hmain⟩ := hchk s hs
  have hstab_eq : reachN (adjOf table) s univ.length =
      reachN (adjOf table) s (univ.length - 1) := eq_of_beq hstab_b
  refine ⟨?_, ?_⟩
  · intro heq
    subst heq
    rw [stp_eq_of_valid table endNodes s s k (hstart s hs) (hend s hs)]
    simp
  · rcases le_or_lt k univ.length with hk | hk
    · exact stpEntry_correct table endNodes s e k
        (hmain e he k (List.mem_range.mpr (by omega)))
    · -- large max_steps behaves like max_steps = number of nodes
      have hagree := stp_maxSteps_stable table endNodes univ s e hadjU hs
        (hstart s hs) (hend e he) k (Nat.le_of_lt hk)
      obtain ⟨hB, hC⟩ := stpEntry_correct table endNodes s e univ.length
        (hmain e he univ.length (List.mem_range.mpr (by omega)))
      refine ⟨?_, ?_⟩
      · intro p hp
        rw [hagree] at hp
        exact hB p hp
      · rw [hagree, hC]
        have hiff : (∃ q, isPathFrom (adjOf table) s e q ∧
            q.length ≤ max univ.length 1) ↔
            (∃ q, isPathFrom (adjOf table) s e q ∧ q.length ≤ max k 1) := by
          constructor
          · rintro ⟨q, hq, hlen⟩
            refine ⟨q, hq, hlen.trans ?_⟩
            exact max_le_max (Nat.le_of_lt hk) (Nat.le_refl 1)
          · rintro ⟨q, hq, hlen⟩
            have hqr := path_reach_self (adjOf table) hq
            have hstab := reachN_stab (adjOf table) s (univ.length - 1)
              (by
                have heq2 : univ.length - 1 + 1 = univ.length := by omega
                rw [heq2]
                exact hstab_eq)
            have hin : e ∈ reachN (adjOf table) s (univ.length - 1) := by
              rcases le_or_lt (q.length - 1) (univ.length - 1) with hle | hgt
              · exact reachN_mono (adjOf table) s hle e hqr
              · have := hstab (q.length - 1) (Nat.le_of_lt hgt)
                rwa [this] at hqr
            obtain ⟨q', hq', hlen'⟩ :=
              (mem_reachN_iff_path (adjOf table) s e (univ.length - 1)).mp hin
            refine ⟨q', hq', ?_⟩
            have : univ.length - 1 + 1 = univ.length := by omega
            rw [this] at hlen'
            exact hlen'.trans (Nat.le_max_left _ _)
        rw [hiff]

/-- The adjacency function only produces nodes of the universe as soon as
every table row does. -/
theorem adjOf_subset (table : List (String × List String)) (univ : List String)
    (h : ∀ pr ∈ table, ∀ y ∈ pr.2, y ∈ univ) :
    ∀ x, ∀ y ∈ adjOf table x, y ∈ univ := by
  intro x y hy
  unfold adjOf lookupV at hy
  cases hfind : table.find? (fun p => p.1 == x) with
  | none => rw [hfind] at hy; simp at hy
  | some pr =>
    rw [hfind] at hy
    simp only [Option.getD_some] at hy
    exact h pr (List.mem_of_find?_eq_some hfind) y hy

/-- The tie-break property of `suggest_transition_path`, for every
`max_steps`, derived from the finite check: the search returns exactly the
path prescribed by the spec-side `specShortestPath` — the shortest path
with ties broken by adjacency declaration order, or `None` when none fits
the bound. -/
theorem stp_lex_bridge (table : List (String × List String))
    (endNodes univ : List String)
    (hadjU : ∀ x, ∀ y ∈ adjOf table x, y ∈ univ)
    (hstart : ∀ x ∈ univ, (table.find? (fun p => p.1 == x)).isSome)
    (hend : ∀ x ∈ univ, x ∈ endNodes)
    (hchk : stpLexCheck table endNodes univ = true) :
    ∀ s ∈ univ, ∀ e ∈ univ, ∀ k : ℕ,
      suggest_transition_path table endNodes s e k =
        .ok (specShortestPath (adjOf table) s e univ.length k) := by
  intro s hs e he k
  unfold stpLexCheck at hchk
  simp only [List.all_eq_true] at hchk
  have hse := hchk s hs e he
  unfold specShortestPath
  cases hfp : specFirstPath (adjOf table) s e univ.length with
  | some p =>
    rw [hfp] at hse
    dsimp only at hse
    simp only [Bool.and_eq_true, List.all_eq_true] at hse
    obtain ⟨hplen_b, hentries⟩ := hse
    have hplen : p.length ≤ univ.length := of_decide_eq_true hplen_b
    have hentry : ∀ k', k' < univ.length + 1 →
        suggest_transition_path table endNodes s e k' =
          .ok (if p.length ≤ max k' 1 then some p else none) := by
      intro k' hk'
      have h := hentries k' (List.mem_range.mpr hk')
      cases hr : suggest_transition_path table endNodes s e k' with
      | error msg => rw [hr] at h; simp at h
      | ok o =>
        rw [hr] at h
        dsimp only at h
        rw [eq_of_beq h]
    rcases le_or_lt k univ.length with hk | hk
    · rw [hentry k (by omega)]
    · have hagree := stp_maxSteps_stable table endNodes univ s e hadjU hs
        (hstart s hs) (hend e he) k (le_of_lt hk)
      rw [hagree, hentry univ.length (by omega)]
      have h1 : p.length ≤ max univ.length 1 := le_trans hplen (le_max_left _ _)
      have h2 : p.length ≤ max k 1 :=
        le_trans hplen (le_trans (le_of_lt hk) (le_max_left _ _))
      rw [if_pos h1]
      dsimp only
      rw [if_pos h2]
  | none =>
    rw [hfp] at hse
    dsimp only at hse
    simp only [List.all_eq_true] at hse
    have hentry : ∀ k', k' < univ.length + 1 →
        suggest_transition_path table endNodes s e k' = .ok none := by
      intro k' hk'
      have h := hse k' (List.mem_range.mpr hk')
      cases hr : suggest_transition_path table endNodes s e k' with
      | error msg => rw [hr] at h; simp at h
      | ok o =>
        rw [hr] at h
        dsimp only at h
        rw [eq_of_beq h]
    rcases le_or_lt k univ.length with hk | hk
    · rw [hentry k (by omega)]
    · have hagree := stp_maxSteps_stable table endNodes univ s e hadjU hs
        (hstart s hs) (hend e he) k (le_of_lt hk)
      rw [hagree, hentry univ.length (by omega)]

/-! ## The claims -/

/-- C1, counterexample to the claim as stated: in the modes graph there is
a direct edge (a path of `1 ≤ max_steps = 1` edges) from Ionian to
Mixolydian, yet `suggest_transition_path` with `max_steps = 1` reports that
no path was found. The search in fact bounds the number of nodes of a
path, not its number of edges, by `max_steps`. -/
theorem C1_counterexample :
    suggest_transition_path_modes "Ionian" "Mixolydian" 1 = .ok none ∧
    isPathFrom (adjOf mode_transitions) "Ionian" "Mixolydian"
      ["Ionian", "Mixolydian"] ∧
    (["Ionian", "Mixolydian"].length - 1 ≤ 1) := by
  refine ⟨rfl, ⟨rfl, rfl, by decide⟩, by decide⟩

set_option maxRecDepth 16000 in
set_option maxHeartbeats 4000000 in
/-- C1, amended: for every pair of valid nodes and every `max_steps`, the
search returns `[start]` immediately when `start = end`; any returned path
is a directed path from start to end of minimum node (hence edge) count
among all such paths; it returns `None` exactly when no path with at
most `max (max_steps, 1)` nodes — that is, at most `max_steps - 1` edges,
except that the trivial path `[start]` always qualifies — exists; and the
returned value is precisely the breadth-first choice `specShortestPath`:
the first fitting path of the level-by-level enumeration, i.e. the
shortest path with ties broken by adjacency declaration order. This holds
for both the Western modes graph and the rasas graph. -/
theorem C1_transition_path_correct :
    (∀ s ∈ modeNames, ∀ e ∈ modeNames, ∀ k : ℕ,
      (s = e → suggest_transition_path_modes s e k = .ok (some [s])) ∧
      (∀ p, suggest_transition_path_modes s e k = .ok (some p) →
        isPathFrom (adjOf mode_transitions) s e p ∧
        ∀ q, isPathFrom (adjOf mode_transitions) s e q → p.length ≤ q.length) ∧
      (suggest_transition_path_modes s e k = .ok none ↔
        ¬ ∃ q, isPathFrom (adjOf mode_transitions) s e q ∧ q.length ≤ max k 1)) ∧
    (∀ s ∈ rasaNames, ∀ e ∈ rasaNames, ∀ k : ℕ,
      (s = e → suggest_transition_path_rasas s e k = .ok (some [s])) ∧
      (∀ p, suggest_transition_path_rasas s e k = .ok (some p) →
        isPathFrom (adjOf rasa_transitions) s e p ∧
        ∀ q, isPathFrom (adjOf rasa_transitions) s e q → p.length ≤ q.length) ∧
      (suggest_transition_path_rasas s e k = .ok none ↔
        ¬ ∃ q, isPathFrom (adjOf rasa_transitions) s e q ∧ q.length ≤ max k 1)) ∧
    (∀ s ∈ modeNames, ∀ e ∈ modeNames, ∀ k : ℕ,
      suggest_transition_path_modes s e k =
        .ok (specShortestPath (adjOf mode_transitions) s e modeNames.length k)) ∧
    (∀ s ∈ rasaNames, ∀ e ∈ rasaNames, ∀ k : ℕ,
      suggest_transition_path_rasas s e k =
        .ok (specShortestPath (adjOf rasa_transitions) s e rasaNames.length k)) := by
  refine ⟨?_, ?_, ?_, ?_⟩
  · exact stp_bridge mode_transitions modeNames modeNames
      (adjOf_subset mode_transitions modeNames (by decide))
      (by decide) (by decide) (by decide)
  · exact stp_bridge rasa_transitions rasaNames rasaNames
      (adjOf_subset rasa_transitions rasaNames (by decide))
      (by decide) (by decide) (by decide)
  · exact stp_lex_bridge mode_transitions modeNames modeNames
      (adjOf_subset mode_transitions modeNames (by decide))
      (by decide) (by decide) (by decide)
  · exact stp_lex_bridge rasa_transitions rasaNames rasaNames
      (adjOf_subset rasa_transitions rasaNames (by decide))
      (by decide) (by decide) (by decide)

/-- C1, witness: the amended theorem applied at concrete inputs — the
degenerate Dorian-to-Dorian search, the minimality of the returned
Karuna-to-Veera path, and the exact no-path characterization for
a Lydian-to-Locrian search with one allowed step. -/
theorem C1_transition_path_witness :
    suggest_transition_path_modes "Dorian" "Dorian" 3 = .ok (some ["Dorian"]) ∧
    (isPathFrom (adjOf rasa_transitions) "Karuna" "Veera" ["Karuna", "Veera"] ∧
      ∀ q, isPathFrom (adjOf rasa_transitions) "Karuna" "Veera" q →
        (["Karuna", "Veera"] : List String).length ≤ q.length) ∧
    (suggest_transition_path_modes "Lydian" "Locrian" 1 = .ok none ↔
      ¬ ∃ q, isPathFrom (adjOf mode_transitions) "Lydian" "Locrian" q ∧
        q.length ≤ max 1 1) ∧
    suggest_transition_path_modes "Ionian" "Aeolian" 3 =
      .ok (specShortestPath (adjOf mode_transitions) "Ionian" "Aeolian"
        modeNames.length 3) :=
  ⟨(C1_transition_path_correct.1 "Dorian" (by decide) "Dorian" (by decide) 3).1 rfl,
   (C1_transition_path_correct.2.1 "Karuna" (by decide) "Veera" (by decide) 3).2.1
     ["Karuna", "Veera"] rfl,
   (C1_transition_path_correct.1 "Lydian" (by decide) "Locrian" (by decide) 1).2.2,
   C1_transition_path_correct.2.2.1 "Ionian" (by decide) "Aeolian" (by decide) 3⟩

/-- `get_scale` fails whenever its root is not a canonical spelling,
whatever the scale type. -/
theorem get_scale_err_root (ref : ℚ) (oct : ℤ) (st root : String)
    (hroot : indexOfStr? notes root = none) :
    isOkB (get_scale ref root oct st) = false := by
  unfold get_scale
  cases h : lookupV scale_patterns st with
  | none => rfl
  | some pattern => rw [hroot]; rfl

/-- `get_solfege_frequency` fails whenever its key is not a canonical
spelling, whatever the syllable. -/
theorem get_solfege_err_key (ref : ℚ) (oct : ℤ) (name key : String)
    (hkey : indexOfStr? notes key = none) :
    isOkB (get_solfege_frequency ref name oct key) = false := by
  unfold get_solfege_frequency
  cases h : indexOfStr? solfege name with
  | none => rfl
  | some si => rw [hkey]; rfl

/-- `get_mode_frequencies` fails whenever its root is not a canonical
spelling, whatever the mode name. -/
theorem get_mode_frequencies_err_root (ref : ℚ) (oct : ℤ) (m root : String)
    (hroot : indexOfStr? notes root = none) :
    isOkB (get_mode_frequencies ref m root oct) = false := by
  unfold get_mode_frequencies
  cases h : get_mode_intervals m with
  | error e => rfl
  | ok intervals => rw [hroot]; rfl

/-- C2, counterexample to the claim as stated: `get_camelot_notation`
applied to a key absent from the Camelot table does not raise a typed
error — it returns the default value `None` (the source even comments
"If still not found, return None"). -/
theorem C2_counterexample : get_camelot_code "H" "major" = none := rfl

/-- C2, amended: the modelled engine operations raise typed errors on
contract violations — unknown note in `get_frequency`, out-of-range
shruti number, invalid swara variant, malformed or out-of-range Camelot
notation in `get_key_from_camelot` — with the exception of
`get_camelot_notation`, which returns the default value `None` instead of
raising when the key (even via its enharmonic alias) is not in the table,
while producing a position for every valid key. -/
theorem C2_error_policy :
    (∀ (ref : ℚ) (note : String) (oct : ℤ),
      noteIndex? (normalizeNote note) = none →
      get_frequency ref note oct = .error ("Unknown note: " ++ note)) ∧
    (∀ (ref : ℚ) (n : ℤ), n < 1 ∨ 22 < n →
      get_shruti_frequency ref n =
        .error "Shruti number must be between 1 and 22") ∧
    (∀ (ref : ℚ) (swara variant : String) (m : List (String × ℤ)),
      lookupV swara_to_shruti swara = some (.variants m) →
      (swara == "Sa" || swara == "Pa") = false →
      (m.find? (fun p => p.1 == variant)).isNone = true →
      get_swara_frequency ref swara variant =
        .error ("Invalid variant \x27" ++ variant ++ "\x27 for " ++ swara ++
          ". Available: " ++ String.intercalate ", " (m.map Prod.fst))) ∧
    (∀ code : String, code.length < 2 →
      isOkB (get_key_from_camelot code) = false) ∧
    (∀ code : String, ¬ code.length < 2 → pyInt? (dropRight1 code) = none →
      isOkB (get_key_from_camelot code) = false) ∧
    (∀ (code : String) (n : ℤ), pyInt? (dropRight1 code) = some n →
      (n < 1 ∨ 12 < n) → isOkB (get_key_from_camelot code) = false) ∧
    (∀ pr ∈ camelotValidPairs, (get_camelot_code pr.1 pr.2).isSome = true) ∧
    get_camelot_code "H" "major" = none := by
  refine ⟨?_, ?_, ?_, ?_, ?_, ?_, by decide, rfl⟩
  · intro ref note oct h
    simp only [get_frequency]
    rw [h]
  · intro ref n h
    unfold get_shruti_frequency
    rw [if_pos h]
  · intro ref swara variant m hlook hne hfind
    unfold get_swara_frequency
    rw [hne, if_neg Bool.false_ne_true, hlook]
    dsimp only
    rw [hfind, if_pos rfl]
  · intro code h
    unfold get_key_from_camelot
    rw [if_pos h]
    rfl
  · intro code h hparse
    unfold get_key_from_camelot
    rw [if_neg h, hparse]
    rfl
  · intro code n hparse hrange
    unfold get_key_from_camelot
    by_cases h2 : code.length < 2
    · rw [if_pos h2]; rfl
    · rw [if_neg h2, hparse]
      dsimp only
      by_cases hpos : (code.toList.getLastD ' ').toUpper ≠ 'A' ∧
          (code.toList.getLastD ' ').toUpper ≠ 'B'
      · rw [if_pos hpos]; rfl
      · rw [if_neg hpos, if_pos hrange]; rfl

/-- C2, witness: a typed error from each modelled validating operation,
the invalid-variant message, and the `None` default of
`get_camelot_notation` next to a successful lookup for a valid key. -/
theorem C2_error_policy_witness :
    get_frequency 440 "H" 4 = .error ("Unknown note: " ++ "H") ∧
    get_shruti_frequency 220 0 =
      .error "Shruti number must be between 1 and 22" ∧
    get_swara_frequency 220 "Ga" "bogus" =
      .error ("Invalid variant \x27" ++ "bogus" ++ "\x27 for " ++ "Ga" ++
        ". Available: " ++
        String.intercalate ", " ([("komal", 6), ("shuddha", 8)].map
          (Prod.fst (β := ℤ)))) ∧
    isOkB (get_key_from_camelot "13B") = false ∧
    (get_camelot_code ("C", "major").1 ("C", "major").2).isSome = true :=
  ⟨C2_error_policy.1 440 "H" 4 rfl,
   C2_error_policy.2.1 220 0 (Or.inl (by decide)),
   C2_error_policy.2.2.1 220 "Ga" "bogus" [("komal", 6), ("shuddha", 8)] rfl rfl rfl,
   C2_error_policy.2.2.2.2.2.1 "13B" 13 rfl (Or.inr (by decide)),
   C2_error_policy.2.2.2.2.2.2.1 ("C", "major") (by decide)⟩

/-- C3, counterexample to the claim as stated: `get_scale` does not
normalize a flat-spelled root before the index lookup — `Db` raises where
`C#` succeeds, so the two spellings do not return the same result. -/
theorem C3_counterexample :
    get_scale (440 : ℚ) "Db" 4 "major" =
      .error ("ValueError: " ++ "Db" ++ " is not in list") ∧
    isOkB (get_scale (440 : ℚ) "C#" 4 "major") = true := ⟨rfl, rfl⟩

/-- C3, amended: only `get_frequency` normalizes a flat spelling from the
5-pair enharmonic alias table to its sharp equivalent before indexing (and
returns identical results for the two spellings); `get_scale`,
`get_solfege_frequency` (for its key argument) and `get_mode_frequencies`
index the root/key directly in the canonical sharp-spelled list and raise
`ValueError` for every flat spelling. -/
theorem C3_flat_normalization :
    (∀ (ref : ℚ) (oct : ℤ), ∀ pr ∈ enharmonic_map,
      get_frequency ref pr.1 oct = get_frequency ref pr.2 oct) ∧
    (∀ (ref : ℚ) (oct : ℤ) (st : String),
      ∀ flat ∈ ["Db", "Eb", "Gb", "Ab", "Bb"],
      isOkB (get_scale ref flat oct st) = false) ∧
    (∀ (ref : ℚ) (oct : ℤ) (name : String),
      ∀ flat ∈ ["Db", "Eb", "Gb", "Ab", "Bb"],
      isOkB (get_solfege_frequency ref name oct flat) = false) ∧
    (∀ (ref : ℚ) (oct : ℤ) (m : String),
      ∀ flat ∈ ["Db", "Eb", "Gb", "Ab", "Bb"],
      isOkB (get_mode_frequencies ref m flat oct) = false) := by
  refine ⟨?_, ?_, ?_, ?_⟩
  · intro ref oct pr hpr
    fin_cases hpr <;> rfl
  · intro ref oct st flat hflat
    fin_cases hflat <;> exact get_scale_err_root ref oct st _ rfl
  · intro ref oct name flat hflat
    fin_cases hflat <;> exact get_solfege_err_key ref oct name _ rfl
  · intro ref oct m flat hflat
    fin_cases hflat <;> exact get_mode_frequencies_err_root ref oct m _ rfl

/-- C3, witness: the enharmonic pair `(Db, C#)` in `get_frequency` against
the raising `get_scale`, `get_solfege_frequency` and
`get_mode_frequencies`. -/
theorem C3_flat_normalization_witness :
    get_frequency 440 "Db" 4 = get_frequency 440 "C#" 4 ∧
    isOkB (get_scale 440 "Db" 4 "major") = false ∧
    isOkB (get_solfege_frequency 440 "Do" 4 "Bb") = false ∧
    isOkB (get_mode_frequencies 440 "Dorian" "Eb" 4) = false :=
  ⟨C3_flat_normalization.1 440 4 ("Db", "C#") (by decide),
   C3_flat_normalization.2.1 440 4 "major" "Db" (by decide),
   C3_flat_normalization.2.2.1 440 4 "Do" "Bb" (by decide),
   C3_flat_normalization.2.2.2 440 4 "Dorian" "Eb" (by decide)⟩

/-- C4: for every valid `(key, mode)` pair among the 24 canonical Camelot
entries and their registered enharmonic aliases, converting to a wheel
position with `get_camelot_notation` and back with `get_key_from_camelot`
yields the original pair up to enharmonic equivalence (same pitch class,
same mode). -/
theorem C4_camelot_roundtrip :
    ∀ pr ∈ camelotValidPairs, camelotRoundtripB pr = true := by decide

/-- C4, witness: the round trip at the aliased pair `(Db, major)`
(which travels through position 12B and comes back as that same pitch
class). -/
theorem C4_camelot_roundtrip_witness : camelotRoundtripB ("Db", "major") = true :=
  C4_camelot_roundtrip ("Db", "major") (by decide)

/-- C5: for every valid wheel position (number in `[1, 12]`, letter `A` or
`B`), `get_compatible_keys` succeeds and returns exactly 4 distinct
positions — the relative key, number − 1 and number + 1 on the same
letter, and number + 1 on the opposite letter, all with 1-based wraparound
arithmetic where 0 is remapped to 12; in particular `12B` is compatible
with `1B` and `1A` with `12A`. -/
theorem C5_compatible_keys :
    (∀ n ∈ wheelNumbers, ∀ pos ∈ ['A', 'B'], compatCheckB n pos = true) ∧
    "1B" ∈ compatPositions "12B" ∧ "12A" ∈ compatPositions "1A" := by
  refine ⟨by decide, by decide, by decide⟩

/-- C5, witness: the wraparound case `12B`. -/
theorem C5_compatible_keys_witness : compatCheckB 12 'B' = true :=
  C5_compatible_keys.1 12 (by decide) 'B' (by decide)

/-- C6: `get_shruti_frequency` returns `reference_sa * ratio(n)` from the
static 22-entry table for `n ∈ [1, 22]` and raises an out-of-range error
otherwise; shruti 1 is exactly the reference and shruti 14 exactly its
perfect fifth `3/2`. -/
theorem C6_shruti_frequency :
    ∀ (ref : ℚ) (n : ℤ),
      (1 ≤ n ∧ n ≤ 22 →
        ∃ r, lookupZ shruti_ratios n = some r ∧
          get_shruti_frequency ref n = .ok (ref * r)) ∧
      (n < 1 ∨ 22 < n →
        get_shruti_frequency ref n =
          .error "Shruti number must be between 1 and 22") ∧
      get_shruti_frequency ref 1 = .ok ref ∧
      get_shruti_frequency ref 14 = .ok (ref * (3 / 2)) := by
  intro ref n
  refine ⟨?_, ?_, ?_, ?_⟩
  · rintro ⟨h1, h2⟩
    interval_cases n <;> exact ⟨_, rfl, rfl⟩
  · intro h
    unfold get_shruti_frequency
    rw [if_pos h]
  · have h : get_shruti_frequency ref 1 = .ok (ref * 1) := rfl
    rw [h, mul_one]
  · rfl

/-- C6, witness: both the in-range formula at `n = 14` and the error at
`n = 23`, for the default reference 220 Hz. -/
theorem C6_shruti_frequency_witness :
    (∃ r, lookupZ shruti_ratios 14 = some r ∧
      get_shruti_frequency 220 14 = .ok (220 * r)) ∧
    get_shruti_frequency 220 23 =
      .error "Shruti number must be between 1 and 22" :=
  ⟨(C6_shruti_frequency 220 14).1 (by constructor <;> decide),
   (C6_shruti_frequency 220 23).2.1 (Or.inr (by decide))⟩

/-- C7: each of the 7 mode interval vectors in the modes table is a
rotation of the major-scale vector `[0, 2, 4, 5, 7, 9, 11]`. -/
theorem C7_modes_are_rotations :
    ∀ pr ∈ modes, pr.2.length = 7 ∧ ∃ kk ∈ List.range 7, ∀ i ∈ List.range 7,
      (pr.2.getD i 0 : ℤ) =
        (([0, 2, 4, 5, 7, 9, 11] : List ℤ).getD ((i + kk) % 7) 0 -
          ([0, 2, 4, 5, 7, 9, 11] : List ℤ).getD kk 0) % 12 := by decide

/-- C7, witness: the Dorian row is the rotation at index 1. -/
theorem C7_modes_are_rotations_witness :
    (([0, 2, 3, 5, 7, 9, 10] : List ℕ).length = 7) ∧
    ∃ kk ∈ List.range 7, ∀ i ∈ List.range 7,
      (([0, 2, 3, 5, 7, 9, 10] : List ℕ).getD i 0 : ℤ) =
        (([0, 2, 4, 5, 7, 9, 11] : List ℤ).getD ((i + kk) % 7) 0 -
          ([0, 2, 4, 5, 7, 9, 11] : List ℤ).getD kk 0) % 12 :=
  C7_modes_are_rotations ("Dorian", [0, 2, 3, 5, 7, 9, 10]) (by decide)

/-- C8: `get_swara_frequency` resolves swara and variant through the
`swara_to_shruti` table and defers to `get_shruti_frequency`; `Sa` and `Pa`
ignore the variant argument entirely (any variant string yields shruti 1
and 14 respectively), while for the other five swaras an undefined variant
raises an error whose message names the valid variants for that swara. -/
theorem C8_swara_variants :
    ∀ (ref : ℚ) (variant : String),
      get_swara_frequency ref "Sa" variant = get_shruti_frequency ref 1 ∧
      get_swara_frequency ref "Pa" variant = get_shruti_frequency ref 14 ∧
      (∀ swara ∈ ["Re", "Ga", "Ma", "Dha", "Ni"], ∀ m : List (String × ℤ),
        lookupV swara_to_shruti swara = some (.variants m) →
        (∀ n, lookupV m variant = some n →
          get_swara_frequency ref swara variant = get_shruti_frequency ref n) ∧
        ((m.find? (fun p => p.1 == variant)).isNone = true →
          get_swara_frequency ref swara variant =
            .error ("Invalid variant \x27" ++ variant ++ "\x27 for " ++ swara ++
              ". Available: " ++ String.intercalate ", " (m.map Prod.fst)))) := by
  intro ref variant
  refine ⟨rfl, rfl, ?_⟩
  intro swara hsw m hlook
  have hne : (swara == "Sa" || swara == "Pa") = false := by
    fin_cases hsw <;> rfl
  constructor
  · intro n hn
    unfold get_swara_frequency
    rw [hne, if_neg Bool.false_ne_true, hlook]
    dsimp only
    have hfalse : (m.find? (fun p => p.1 == variant)).isNone = false := by
      unfold lookupV at hn
      cases hfind : m.find? (fun p => p.1 == variant) with
      | none => rw [hfind] at hn; simp at hn
      | some pr => rfl
    rw [hfalse, if_neg Bool.false_ne_true, hn]
  · intro hfind
    unfold get_swara_frequency
    rw [hne, if_neg Bool.false_ne_true, hlook]
    dsimp only
    rw [hfind, if_pos rfl]

/-- C8, witness: `Sa` with an arbitrary variant string, a resolved variant
(`Re komal`, shruti 3), and the invalid-variant error for `Ni tivra`
naming the valid options. -/
theorem C8_swara_variants_witness :
    get_swara_frequency 220 "Sa" "totally-ignored" = get_shruti_frequency 220 1 ∧
    get_swara_frequency 220 "Re" "komal" = get_shruti_frequency 220 3 ∧
    get_swara_frequency 220 "Ni" "tivra" =
      .error ("Invalid variant \x27" ++ "tivra" ++ "\x27 for " ++ "Ni" ++
        ". Available: " ++
        String.intercalate ", " ([("komal", 19), ("shuddha", 21)].map
          (Prod.fst (β := ℤ)))) :=
  ⟨(C8_swara_variants 220 "totally-ignored").1,
   ((C8_swara_variants 220 "komal").2.2 "Re" (by decide)
     [("komal", 3), ("shuddha", 5)] rfl).1 3 rfl,
   ((C8_swara_variants 220 "tivra").2.2 "Ni" (by decide)
     [("komal", 19), ("shuddha", 21)] rfl).2 rfl⟩

/-- C9: `get_western_equivalent` never raises — an unknown raga or a
thaat without a Western mapping produces a descriptive no-equivalent
message result, and every other raga reaches a full result; and
`get_rasa_from_raga` returns exactly the rasas whose raga list contains
the raga, the empty list (not an error) when none does. -/
theorem C9_bridge_never_fails :
    ∀ raga : String,
      (∃ w, get_western_equivalent raga = .ok w) ∧
      (get_raga_thaat raga = none →
        get_western_equivalent raga =
          .ok (.noEquiv ("No thaat information available for " ++ raga))) ∧
      (∀ rasa : String, rasa ∈ get_rasa_from_raga raga ↔
        ∃ pr ∈ rasa_ragas, pr.1 = rasa ∧ raga ∈ pr.2) ∧
      (get_rasa_from_raga raga = [] ↔ ∀ pr ∈ rasa_ragas, raga ∉ pr.2) := by
  intro raga
  have hthaatOk : ∀ pr ∈ raga_thaats, thaatOkB pr.2 = true := by decide
  refine ⟨?_, ?_, ?_, ?_⟩
  · unfold get_western_equivalent
    cases hth : get_raga_thaat raga with
    | none => exact ⟨_, rfl⟩
    | some thaat =>
      have hmem : (raga, thaat) ∈ raga_thaats := by
        unfold get_raga_thaat lookupStr at hth
        cases hfind : raga_thaats.find? (fun p => p.1 == raga) with
        | none => rw [hfind] at hth; simp at hth
        | some pr =>
          rw [hfind] at hth
          simp only [Option.some.injEq] at hth
          have hmem' := List.mem_of_find?_eq_some hfind
          have hkey : pr.1 = raga := by
            have := List.find?_some hfind
            simpa using this
          have : pr = (raga, thaat) := by
            cases pr
            simp only [Prod.mk.injEq]
            exact ⟨hkey, hth⟩
          rwa [this] at hmem'
      have hok := hthaatOk (raga, thaat) hmem
      unfold thaatOkB at hok
      dsimp only
      cases hws : lookupStr thaat_western_map thaat with
      | none => exact ⟨_, rfl⟩
      | some ws =>
        rw [hws] at hok
        dsimp only at hok ⊢
        cases hcc : get_camelot_code ((lookupStr thaat_to_key_map thaat).getD "C")
            (if ws ∈ ["Natural Minor", "Phrygian", "Dorian"]
             then "minor" else "major") with
        | none => exact ⟨_, rfl⟩
        | some cn =>
          rw [hcc] at hok
          dsimp only at hok ⊢
          cases hck : get_compatible_keys cn with
          | error e => rw [hck] at hok; simp [isOkB] at hok
          | ok compat => exact ⟨_, rfl⟩
  · intro h
    unfold get_western_equivalent
    rw [h]
  · intro rasa
    unfold get_rasa_from_raga
    simp only [List.mem_map, List.mem_filter, decide_eq_true_eq]
    constructor
    · rintro ⟨pr, ⟨hmem, hin⟩, heq⟩
      exact ⟨pr, hmem, heq, hin⟩
    · rintro ⟨pr, hmem, heq, hin⟩
      exact ⟨pr, ⟨hmem, hin⟩, heq⟩
  · unfold get_rasa_from_raga
    constructor
    · intro h pr hmem hin
      have : pr.1 ∈ (List.map Prod.fst (rasa_ragas.filter (fun p => raga ∈ p.2))) := by
        exact List.mem_map.mpr ⟨pr, List.mem_filter.mpr ⟨hmem, by simpa using hin⟩, rfl⟩
      rw [h] at this
      simp at this
    · intro h
      have : rasa_ragas.filter (fun p => raga ∈ p.2) = [] := by
        rw [List.filter_eq_nil_iff]
        intro pr hmem
        simpa using h pr hmem
      rw [this]
      rfl

/-- C9, witness: a full result for Yaman, the no-thaat message for an
unknown raga, and the reverse lookup for Bhairav. -/
theorem C9_bridge_never_fails_witness :
    (∃ w, get_western_equivalent "Yaman" = .ok w) ∧
    get_western_equivalent "Zzz" =
      .ok (.noEquiv ("No thaat information available for " ++ "Zzz")) ∧
    ("Raudra" ∈ get_rasa_from_raga "Bhairav" ↔
      ∃ pr ∈ rasa_ragas, pr.1 = "Raudra" ∧ "Bhairav" ∈ pr.2) :=
  ⟨(C9_bridge_never_fails "Yaman").1,
   (C9_bridge_never_fails "Zzz").2.1 rfl,
   (C9_bridge_never_fails "Bhairav").2.2.1 "Raudra"⟩

/-- Mapping each element's success value commutes with `mapM` over
`Except`. -/
theorem mapM_map_except {α β γ : Type} (f : α → Except String β) (t : β → γ) :
    ∀ l : List α,
      l.mapM (fun a => (f a).map t) = (l.mapM f).map (List.map t) := by
  intro l
  induction l with
  | nil => rfl
  | cons a l ih =>
    rw [List.mapM_cons, List.mapM_cons]
    cases hfa : f a with
    | error e => rfl
    | ok b =>
      simp only [ih]
      cases hl : l.mapM f with
      | error e => rfl
      | ok bs => rfl

/-- `get_frequency` scales linearly in the reference pitch: the result at
reference `r` is the result at reference 1 with its reference component
multiplied by `r`, errors included. -/
theorem get_frequency_scales (r : ℚ) (note : String) (oct : ℤ) :
    get_frequency r note oct =
      (get_frequency 1 note oct).map (fun p => (r * p.1, p.2)) := by
  simp only [get_frequency]
  cases h : noteIndex? (normalizeNote note) with
  | none => rfl
  | some i =>
    cases hA : noteIndex? "A" with
    | none => rfl
    | some a => simp [Except.map]

/-- `get_solfege_frequency` scales linearly in the reference pitch. -/
theorem get_solfege_frequency_scales (r : ℚ) (name : String) (oct : ℤ)
    (key : String) :
    get_solfege_frequency r name oct key =
      (get_solfege_frequency 1 name oct key).map (fun p => (r * p.1, p.2)) := by
  unfold get_solfege_frequency
  cases indexOfStr? solfege name with
  | none => rfl
  | some si =>
    cases indexOfStr? notes key with
    | none => rfl
    | some ki => exact get_frequency_scales r _ _

/-- Each scale entry scales linearly in the reference pitch. -/
theorem scaleEntry_scales (r : ℚ) (ri : ℕ) (oct : ℤ) (iv : ℕ) :
    scaleEntry r ri oct iv =
      (scaleEntry 1 ri oct iv).map
        (fun en => (en.1, (r * en.2.1, en.2.2))) := by
  unfold scaleEntry
  dsimp only
  rw [get_frequency_scales r]
  cases get_frequency 1 (notes.getD ((ri + iv) % 12) "")
      (oct + (((ri + iv) / 12 : ℕ) : ℤ)) with
  | error e => rfl
  | ok p => rfl

/-- `get_scale` scales linearly in the reference pitch. -/
theorem get_scale_scales (r : ℚ) (root : String) (oct : ℤ) (st : String) :
    get_scale r root oct st =
      (get_scale 1 root oct st).map
        (List.map (fun en => (en.1, (r * en.2.1, en.2.2)))) := by
  unfold get_scale
  cases lookupV scale_patterns st with
  | none => rfl
  | some pattern =>
    cases indexOfStr? notes root with
    | none => rfl
    | some ri =>
      calc pattern.mapM (scaleEntry r ri oct)
          = pattern.mapM (fun iv => (scaleEntry 1 ri oct iv).map
              (fun en => (en.1, (r * en.2.1, en.2.2)))) := by
            congr 1
            funext iv
            exact scaleEntry_scales r ri oct iv
        _ = (pattern.mapM (scaleEntry 1 ri oct)).map
              (List.map (fun en => (en.1, (r * en.2.1, en.2.2)))) :=
            mapM_map_except _ _ pattern

/-- `get_mode_frequencies` scales linearly in the reference pitch. -/
theorem get_mode_frequencies_scales (r : ℚ) (m root : String) (oct : ℤ) :
    get_mode_frequencies r m root oct =
      (get_mode_frequencies 1 m root oct).map
        (List.map (fun en => (en.1, (r * en.2.1, en.2.2)))) := by
  unfold get_mode_frequencies
  cases get_mode_intervals m with
  | error e => rfl
  | ok intervals =>
    cases indexOfStr? notes root with
    | none => rfl
    | some ri =>
      calc intervals.mapM (scaleEntry r ri oct)
          = intervals.mapM (fun iv => (scaleEntry 1 ri oct iv).map
              (fun en => (en.1, (r * en.2.1, en.2.2)))) := by
            congr 1
            funext iv
            exact scaleEntry_scales r ri oct iv
        _ = (intervals.mapM (scaleEntry 1 ri oct)).map
              (List.map (fun en => (en.1, (r * en.2.1, en.2.2)))) :=
            mapM_map_except _ _ intervals

/-- `get_shruti_frequency` scales linearly in the reference pitch. -/
theorem get_shruti_frequency_scales (r : ℚ) (n : ℤ) :
    get_shruti_frequency r n =
      (get_shruti_frequency 1 n).map (fun q => r * q) := by
  unfold get_shruti_frequency
  by_cases h : n < 1 ∨ 22 < n
  · rw [if_pos h, if_pos h]; rfl
  · rw [if_neg h, if_neg h]
    cases lookupZ shruti_ratios n with
    | none => rfl
    | some q => simp [Except.map]

/-- `get_swara_frequency` scales linearly in the reference pitch. -/
theorem get_swara_frequency_scales (r : ℚ) (sw v : String) :
    get_swara_frequency r sw v =
      (get_swara_frequency 1 sw v).map (fun q => r * q) := by
  unfold get_swara_frequency
  by_cases h : (sw == "Sa" || sw == "Pa") = true
  · rw [if_pos h, if_pos h]
    cases lookupV swara_to_shruti sw with
    | none => rfl
    | some en =>
      cases en with
      | plain n => exact get_shruti_frequency_scales r n
      | variants m => rfl
  · rw [if_neg h, if_neg h]
    cases lookupV swara_to_shruti sw with
    | none => rfl
    | some en =>
      cases en with
      | plain n => rfl
      | variants m =>
        dsimp only
        by_cases hf : (m.find? (fun p => p.1 == v)).isNone = true
        · rw [if_pos hf, if_pos hf]; rfl
        · rw [if_neg hf, if_neg hf]
          cases lookupV m v with
          | none => rfl
          | some n => exact get_shruti_frequency_scales r n

/-- Each raga entry scales linearly in the reference pitch. -/
theorem ragaEntry_scales (r : ℚ) (sv : String × String) :
    ragaEntry r sv = (ragaEntry 1 sv).map (fun en => (en.1, r * en.2)) := by
  unfold ragaEntry
  dsimp only
  rw [get_swara_frequency_scales r]
  cases get_swara_frequency 1 sv.1
      (if sv.1 == "Sa" || sv.1 == "Pa" then "shuddha" else sv.2) with
  | error e => rfl
  | ok q => rfl

/-- `calculate_raga_frequencies` scales linearly in the reference pitch. -/
theorem calculate_raga_frequencies_scales (r : ℚ) (raga : String) :
    calculate_raga_frequencies r raga =
      (calculate_raga_frequencies 1 raga).map
        (List.map (fun en => (en.1, r * en.2))) := by
  unfold calculate_raga_frequencies
  cases get_raga raga with
  | error e => rfl
  | ok spec =>
    calc spec.mapM (ragaEntry r)
        = spec.mapM (fun sv => (ragaEntry 1 sv).map
            (fun en => (en.1, r * en.2))) := by
          congr 1
          funext sv
          exact ragaEntry_scales r sv
      _ = (spec.mapM (ragaEntry 1)).map
            (List.map (fun en => (en.1, r * en.2))) :=
          mapM_map_except _ _ spec

/-- C10: the constructors perform no positivity check — the reference
pitch is an arbitrary rational, zero and negative values included — and
every frequency-producing operation scales linearly in it: its result at
reference `r` is its result at reference 1 with every frequency multiplied
by `r` (in the Western encoding, the reference component of the pair), and
it raises exactly when the reference-1 computation raises. -/
theorem C10_reference_scaling :
    ∀ r : ℚ,
      (∀ (note : String) (oct : ℤ), get_frequency r note oct =
        (get_frequency 1 note oct).map (fun p => (r * p.1, p.2))) ∧
      (∀ (name key : String) (oct : ℤ), get_solfege_frequency r name oct key =
        (get_solfege_frequency 1 name oct key).map (fun p => (r * p.1, p.2))) ∧
      (∀ (root st : String) (oct : ℤ), get_scale r root oct st =
        (get_scale 1 root oct st).map
          (List.map (fun en => (en.1, (r * en.2.1, en.2.2))))) ∧
      (∀ (m root : String) (oct : ℤ), get_mode_frequencies r m root oct =
        (get_mode_frequencies 1 m root oct).map
          (List.map (fun en => (en.1, (r * en.2.1, en.2.2))))) ∧
      (∀ n : ℤ, get_shruti_frequency r n =
        (get_shruti_frequency 1 n).map (fun q => r * q)) ∧
      (∀ sw v : String, get_swara_frequency r sw v =
        (get_swara_frequency 1 sw v).map (fun q => r * q)) ∧
      (∀ raga : String, calculate_raga_frequencies r raga =
        (calculate_raga_frequencies 1 raga).map
          (List.map (fun en => (en.1, r * en.2)))) := by
  intro r
  exact ⟨fun note oct => get_frequency_scales r note oct,
    fun name key oct => get_solfege_frequency_scales r name oct key,
    fun root st oct => get_scale_scales r root oct st,
    fun m root oct => get_mode_frequencies_scales r m root oct,
    fun n => get_shruti_frequency_scales r n,
    fun sw v => get_swara_frequency_scales r sw v,
    fun raga => calculate_raga_frequencies_scales r raga⟩

end SvaraScala
